import Mathlib

/-!
# Verification of the watch-cache ordered store / indexer (`cacher` package)

Shallow embedding of `threadedStoreIndexer`, `btreeStore`, `indexer` and
`continueCache` from the `cacher` package, together with proofs of the
spec's testable properties.

Modelling conventions:
* Go strings (keys) are byte lists (`List Nat`); Go's `<` on strings is
  byte-wise lexicographic order, embedded as `keyLt`; `strings.HasPrefix`
  is byte-list prefix.
* The `github.com/google/btree` tree of `storeElement`s (ordered by
  `storeElement.Less`, i.e. by `Key`) is embedded as a list of elements
  kept sorted strictly ascending by key.  `ReplaceOrInsert`, `Delete`,
  `Get`, `Ascend`, `AscendGreaterOrEqual` and `Clone` become the
  corresponding pure list operations; copy-on-write cloning of a pure
  value is the value itself.
* Go maps are embedded as association lists; map-iteration results are
  reasoned about as sets (Go iteration order is unspecified).
* `interface{}` inputs that may be nil or of the wrong dynamic type are
  embedded as the sum type `GoObj`; Go errors are `Option String`.
-/

namespace WatchStore

/-- A Go string viewed as its byte sequence. -/
abbrev GoStr := List Nat

/-- Byte-wise lexicographic strict order on Go strings (Go's `<`). -/
def keyLt : GoStr → GoStr → Bool
  | [], [] => false
  | [], _ :: _ => true
  | _ :: _, [] => false
  | a :: as, b :: bs => if a < b then true else if b < a then false else keyLt as bs

/-- `keyLe a b` means `a ≤ b` in byte-wise lexicographic order. -/
def keyLe (a b : GoStr) : Bool := ! keyLt b a

/-- `strings.HasPrefix s pre`: `pre` is a byte prefix of `s`. -/
def hasPrefix (s pre : GoStr) : Bool := pre.isPrefixOf s

theorem keyLt_irrefl (a : GoStr) : keyLt a a = false := by
  induction a with
  | nil => rfl
  | cons x xs ih => simp [keyLt, ih]

theorem keyLt_nil (a : GoStr) : keyLt a [] = false := by
  cases a <;> rfl

theorem keyLt_asymm {a b : GoStr} (h : keyLt a b = true) : keyLt b a = false := by
  induction a generalizing b with
  | nil =>
    cases b with
    | nil => simp [keyLt] at h
    | cons y ys => simp [keyLt]
  | cons x xs ih =>
    cases b with
    | nil => simp [keyLt] at h
    | cons y ys =>
      simp only [keyLt] at h ⊢
      rcases Nat.lt_trichotomy x y with hxy | hxy | hxy
      · simp [hxy, Nat.lt_asymm hxy, Nat.ne_of_gt hxy]
      · subst hxy
        simp only [lt_irrefl, if_false] at h ⊢
        exact ih h
      · simp [hxy, Nat.lt_asymm hxy] at h

theorem keyLt_total (a b : GoStr) (hab : keyLt a b = false) (hba : keyLt b a = false) :
    a = b := by
  induction a generalizing b with
  | nil =>
    cases b with
    | nil => rfl
    | cons y ys => simp [keyLt] at hab
  | cons x xs ih =>
    cases b with
    | nil => simp [keyLt] at hba
    | cons y ys =>
      simp only [keyLt] at hab hba
      rcases Nat.lt_trichotomy x y with hxy | hxy | hxy
      · simp [hxy] at hab
      · subst hxy
        simp only [lt_irrefl, if_false] at hab hba
        rw [ih ys hab hba]
      · simp [hxy] at hba

theorem keyLt_trans {a b c : GoStr} (h₁ : keyLt a b = true) (h₂ : keyLt b c = true) :
    keyLt a c = true := by
  induction a generalizing b c with
  | nil =>
    cases b with
    | nil => simp [keyLt] at h₁
    | cons y ys =>
      cases c with
      | nil => simp [keyLt] at h₂
      | cons z zs => simp [keyLt]
  | cons x xs ih =>
    cases b with
    | nil => simp [keyLt] at h₁
    | cons y ys =>
      cases c with
      | nil => simp [keyLt] at h₂
      | cons z zs =>
        simp only [keyLt] at h₁ h₂ ⊢
        rcases Nat.lt_trichotomy x y with hxy | hxy | hxy
        · rcases Nat.lt_trichotomy y z with hyz | hyz | hyz
          · simp [Nat.lt_trans hxy hyz]
          · subst hyz; simp [hxy]
          · simp [hyz, Nat.lt_asymm hyz] at h₂
        · subst hxy
          simp only [lt_irrefl, if_false] at h₁
          rcases Nat.lt_trichotomy x z with hxz | hxz | hxz
          · simp [hxz]
          · subst hxz
            simp only [lt_irrefl, if_false] at h₂ ⊢
            exact ih h₁ h₂
          · simp [hxz, Nat.lt_asymm hxz] at h₂
        · simp [hxy, Nat.lt_asymm hxy] at h₁

theorem keyLt_of_le_of_lt {a b c : GoStr} (h₁ : keyLe a b = true) (h₂ : keyLt b c = true) :
    keyLt a c = true := by
  by_cases hab : keyLt a b = true
  · exact keyLt_trans hab h₂
  · have hba : keyLt b a = false := by
      simpa [keyLe] using h₁
    have : a = b := keyLt_total a b (by simpa using hab) hba
    subst this; exact h₂

theorem keyLe_refl (a : GoStr) : keyLe a a = true := by
  simp [keyLe, keyLt_irrefl]

theorem keyLe_of_lt {a b : GoStr} (h : keyLt a b = true) : keyLe a b = true := by
  simp [keyLe, keyLt_asymm h]

theorem keyLe_trans {a b c : GoStr} (h₁ : keyLe a b = true) (h₂ : keyLe b c = true) :
    keyLe a c = true := by
  simp only [keyLe, Bool.not_eq_true'] at h₁ ⊢
  by_contra hca
  have hca' : keyLt c a = true := by
    rcases Bool.eq_false_or_eq_true (keyLt c a) with h | h
    · exact h
    · exact absurd h hca
  have hba : keyLt b a = true := keyLt_of_le_of_lt h₂ hca'
  simp [hba] at h₁

/-- A byte prefix of `s` is `≤ s` lexicographically. -/
theorem keyLe_of_hasPrefix {s pre : GoStr} (h : hasPrefix s pre = true) :
    keyLe pre s = true := by
  simp only [hasPrefix] at h
  rw [List.isPrefixOf_iff_prefix] at h
  obtain ⟨t, rfl⟩ := h
  induction pre with
  | nil =>
    cases t with
    | nil => simp [keyLe, keyLt]
    | cons c cs => simp [keyLe, keyLt]
  | cons x xs ih =>
    simp only [keyLe, keyLt, List.cons_append, lt_irrefl, if_false] at ih ⊢
    simpa [keyLe] using ih

/-- Keys lying (lexicographically) between a string with prefix `p` and a
string with prefix `p`, with `p ≤` the lower one, also have prefix `p`. -/
theorem hasPrefix_of_between {p v w : GoStr} (hw : hasPrefix w p = true)
    (hpv : keyLe p v = true) (hvw : keyLe v w = true) : hasPrefix v p = true := by
  induction p generalizing v w with
  | nil => simp [hasPrefix, List.isPrefixOf]
  | cons a p' ih =>
    cases w with
    | nil => simp [hasPrefix, List.isPrefixOf] at hw
    | cons b w' =>
      have hab : a = b := by
        by_contra hne
        simp [hasPrefix, List.isPrefixOf, hne] at hw
      subst hab
      have hw' : hasPrefix w' p' = true := by
        simpa [hasPrefix, List.isPrefixOf] using hw
      cases v with
      | nil => simp [keyLe, keyLt] at hpv
      | cons c v' =>
        simp only [keyLe, keyLt, Bool.not_eq_true'] at hpv hvw
        have hac : a = c := by
          rcases Nat.lt_trichotomy a c with h | h | h
          · simp [h, Nat.lt_asymm h] at hvw
          · exact h
          · simp [h] at hpv
        subst hac
        simp only [lt_irrefl, if_false] at hpv hvw
        have h₁ : keyLe p' v' = true := by simpa [keyLe] using hpv
        have h₂ : keyLe v' w' = true := by simpa [keyLe] using hvw
        simpa [hasPrefix, List.isPrefixOf] using ih hw' h₁ h₂

/-- Appending a zero byte produces the immediate successor in byte-wise
lexicographic order: `a < k` iff `a ++ [0] ≤ k`. -/
theorem keyLt_iff_keyLe_append_zero (a k : GoStr) :
    keyLt a k = true ↔ keyLe (a ++ [0]) k = true := by
  induction a generalizing k with
  | nil =>
    cases k with
    | nil => simp [keyLt, keyLe]
    | cons c cs =>
      simp only [keyLt, keyLe, List.nil_append]
      rcases Nat.eq_zero_or_pos c with hc | hc
      · subst hc
        simp [keyLt, keyLt_nil]
      · simp [keyLt, Nat.not_lt_of_lt hc, Nat.ne_of_gt hc, hc]
  | cons x a' ih =>
    cases k with
    | nil => simp [keyLt, keyLe]
    | cons c cs =>
      simp only [keyLt, keyLe, List.cons_append]
      rcases Nat.lt_trichotomy x c with h | h | h
      · simp [keyLt, h, Nat.lt_asymm h, Nat.ne_of_lt h]
      · subst h
        simp only [lt_irrefl, if_false, keyLt]
        simpa [keyLe] using ih cs
      · simp [keyLt, h, Nat.lt_asymm h, Nat.ne_of_gt h]

end WatchStore

namespace WatchStore

/-- Modelled from the spec: `storeElement` (defined outside this slice) is
the unit stored in the ordered store; `Key` is the unique string key that
defines the B-tree order (`storeElement.Less` compares keys), `Object` is
the opaque API object, here an opaque payload identifier. -/
structure StoreElement where
  Key : GoStr
  Object : Nat
  deriving DecidableEq, Repr

/-- A Go `interface{}` argument: nil, a `*storeElement`, or a value of
some other dynamic type. -/
inductive GoObj where
  | nil
  | elem (e : StoreElement)
  | other
  deriving DecidableEq, Repr

/-- `btree.BTree.ReplaceOrInsert` on a key-sorted element list: insert
`e` at its key position, replacing (and returning) any element with an
equal key. -/
def treeReplaceOrInsert : List StoreElement → StoreElement → List StoreElement × Option StoreElement
  | [], e => ([e], none)
  | x :: xs, e =>
    if keyLt e.Key x.Key then (e :: x :: xs, none)
    else if keyLt x.Key e.Key then
      let r := treeReplaceOrInsert xs e
      (x :: r.1, r.2)
    else (e :: xs, some x)

/-- `btree.BTree.Delete` on a key-sorted element list: remove and return
the element whose key equals `e.Key`, if present. -/
def treeDelete : List StoreElement → StoreElement → List StoreElement × Option StoreElement
  | [], _ => ([], none)
  | x :: xs, e =>
    if keyLt e.Key x.Key then (x :: xs, none)
    else if keyLt x.Key e.Key then
      let r := treeDelete xs e
      (x :: r.1, r.2)
    else (xs, some x)

/-- `btree.BTree.Get` with a key-only pivot element: find the element
with the given key. -/
def treeGet (l : List StoreElement) (key : GoStr) : Option StoreElement :=
  l.find? (fun e => decide (e.Key = key))

/-- `btreeStore`: the ordered store, a B-tree of `storeElement`s ordered
by key, embedded as a key-sorted element list. -/
structure BtreeStore where
  tree : List StoreElement
  deriving DecidableEq, Repr

/-- `newBtreeStore` (the degree only tunes B-tree node fan-out). -/
def newBtreeStore : BtreeStore := ⟨[]⟩

/-- The element list is strictly ascending by key (the B-tree invariant). -/
abbrev SortedTree (l : List StoreElement) : Prop :=
  l.Pairwise (fun a b => keyLt a.Key b.Key = true)

/-- `btreeStore.addOrUpdateElem`: insert-or-replace, returning the
previous element at that key if any. -/
def BtreeStore.addOrUpdateElem (s : BtreeStore) (storeElem : StoreElement) :
    BtreeStore × Option StoreElement :=
  let r := treeReplaceOrInsert s.tree storeElem
  (⟨r.1⟩, r.2)

/-- `btreeStore.deleteElem`. -/
def BtreeStore.deleteElem (s : BtreeStore) (storeElem : StoreElement) :
    BtreeStore × Option StoreElement :=
  let r := treeDelete s.tree storeElem
  (⟨r.1⟩, r.2)

/-- `btreeStore.Add`. -/
def BtreeStore.Add (s : BtreeStore) (obj : GoObj) : BtreeStore × Option String :=
  match obj with
  | .nil => (s, some "obj cannot be nil")
  | .other => (s, some "obj not a storeElement")
  | .elem e => ((s.addOrUpdateElem e).1, none)

/-- `btreeStore.Update`. -/
def BtreeStore.Update (s : BtreeStore) (obj : GoObj) : BtreeStore × Option String :=
  match obj with
  | .nil => (s, some "obj cannot be nil")
  | .other => (s, some "obj not a storeElement")
  | .elem e => ((s.addOrUpdateElem e).1, none)

/-- `btreeStore.Delete`. -/
def BtreeStore.Delete (s : BtreeStore) (obj : GoObj) : BtreeStore × Option String :=
  match obj with
  | .nil => (s, some "obj cannot be nil")
  | .other => (s, some "obj not a storeElement")
  | .elem e => ((s.deleteElem e).1, none)

/-- `btreeStore.List` (named `ListElems` because `List` is taken). -/
def BtreeStore.ListElems (s : BtreeStore) : List StoreElement :=
  s.tree

/-- `btreeStore.ListKeys`. -/
def BtreeStore.ListKeys (s : BtreeStore) : List GoStr :=
  s.tree.map (·.Key)

/-- `btreeStore.Get`: lookup by the argument element's key; `(item,
exists, err)` becomes `(Option StoreElement × Bool) ⊕ error`. -/
def BtreeStore.Get (s : BtreeStore) (obj : GoObj) :
    (Option StoreElement × Bool) × Option String :=
  match obj with
  | .elem e =>
    match treeGet s.tree e.Key with
    | none => ((none, false), none)
    | some it => ((some it, true), none)
  | _ => ((none, false), some "obj is not a storeElement")

/-- `btreeStore.GetByKey` / `getByKey`. -/
def BtreeStore.GetByKey (s : BtreeStore) (key : GoStr) : Option StoreElement × Bool :=
  let item := treeGet s.tree key
  (item, item.isSome)

/-- The element loop of `btreeStore.Replace`, after `tree.Clear`. -/
def replaceLoop : BtreeStore → List GoObj → BtreeStore × Option String
  | s, [] => (s, none)
  | s, o :: rest =>
    match o with
    | .elem e => replaceLoop (s.addOrUpdateElem e).1 rest
    | _ => (s, some "obj not a storeElement")

/-- `btreeStore.Replace`: clear the tree, then insert every object,
stopping with an error at the first non-`storeElement`. -/
def BtreeStore.Replace (s : BtreeStore) (objs : List GoObj) : BtreeStore × Option String :=
  replaceLoop ⟨[]⟩ objs

/-- The `AscendGreaterOrEqual` callback loop of `btreeStore.ListPrefix`
for `limit > 0`: stop at the first key without the prefix; append while
`len(result) < limit`; otherwise set `hasMore` and stop. -/
def listPrefixLoop (pfx : GoStr) (limit : Int) :
    List StoreElement → List StoreElement → List StoreElement × Bool
  | [], result => (result, false)
  | e :: rest, result =>
    if hasPrefix e.Key pfx = false then (result, false)
    else if (result.length : Int) < limit then
      listPrefixLoop pfx limit rest (result ++ [e])
    else (result, true)

/-- `btreeStore.ListPrefix`. -/
def BtreeStore.ListPrefix (s : BtreeStore) (pfx continueKey : GoStr) (limit : Int) :
    List StoreElement × Bool :=
  if limit < 0 then ([], false)
  else
    let ck := if continueKey = [] then pfx else continueKey
    let region := s.tree.dropWhile (fun e => keyLt e.Key ck)
    if limit = 0 then
      (region.takeWhile (fun e => hasPrefix e.Key pfx), false)
    else
      listPrefixLoop pfx limit region []

/-- `btreeStore.Count`: the same ascending traversal as `ListPrefix`,
counting instead of collecting. -/
def BtreeStore.Count (s : BtreeStore) (pfx continueKey : GoStr) : Nat :=
  let ck := if continueKey = [] then pfx else continueKey
  ((s.tree.dropWhile (fun e => keyLt e.Key ck)).takeWhile
    (fun e => hasPrefix e.Key pfx)).length

/-- `btreeStore.Clone`: `tree.Clone()` is a copy-on-write snapshot; on a
pure value it is the value itself. -/
def BtreeStore.Clone (s : BtreeStore) : BtreeStore :=
  ⟨s.tree⟩

end WatchStore

namespace WatchStore

/-- The effective continue key: `ListPrefix`/`Count` fall back to the
prefix when the continue key is empty. -/
def effCk (pfx continueKey : GoStr) : GoStr :=
  if continueKey = [] then pfx else continueKey

/-- The full (unlimited) scan result of `ListPrefix`/`Count`: ascend from
the effective continue key, stop at the first key without the prefix. -/
def matchRegion (s : BtreeStore) (pfx continueKey : GoStr) : List StoreElement :=
  (s.tree.dropWhile (fun e => keyLt e.Key (effCk pfx continueKey))).takeWhile
    (fun e => hasPrefix e.Key pfx)

theorem ListPrefix_zero_eq (s : BtreeStore) (p ck : GoStr) :
    s.ListPrefix p ck 0 = (matchRegion s p ck, false) := by
  simp [BtreeStore.ListPrefix, matchRegion, effCk]

theorem Count_eq (s : BtreeStore) (p ck : GoStr) :
    s.Count p ck = (matchRegion s p ck).length := by
  simp [BtreeStore.Count, matchRegion, effCk]

theorem listPrefixLoop_eq (p : GoStr) (L : Int) (hL : 0 < L) :
    ∀ (l acc : List StoreElement), acc.length ≤ L.toNat →
      listPrefixLoop p L l acc =
        (acc ++ (l.takeWhile (fun e => hasPrefix e.Key p)).take (L.toNat - acc.length),
         decide (L.toNat - acc.length < (l.takeWhile (fun e => hasPrefix e.Key p)).length)) := by
  intro l
  induction l with
  | nil =>
    intro acc _
    simp [listPrefixLoop]
  | cons e rest ih =>
    intro acc hacc
    by_cases hp : hasPrefix e.Key p
    · simp only [listPrefixLoop, hp, List.takeWhile_cons_of_pos, Bool.true_eq_false,
        if_false]
      by_cases hlen : (acc.length : Int) < L
      · have hlt : acc.length < L.toNat := by omega
        have hstep : acc.length + 1 ≤ L.toNat := hlt
        rw [if_pos hlen, ih (acc ++ [e]) (by simpa using hstep)]
        have hk : L.toNat - acc.length = (L.toNat - (acc ++ [e]).length) + 1 := by
          simp only [List.length_append, List.length_cons, List.length_nil]
          omega
        rw [hk]
        simp only [List.take_succ_cons, List.length_cons, List.append_assoc,
          List.cons_append, List.nil_append]
        congr 1
        simp only [decide_eq_decide]
        omega
      · have hge : acc.length = L.toNat := by omega
        rw [if_neg hlen]
        have hk : L.toNat - acc.length = 0 := by omega
        simp [hk]
    · simp [listPrefixLoop, hp]

theorem ListPrefix_pos_eq (s : BtreeStore) (p ck : GoStr) (L : Int) (hL : 0 < L) :
    s.ListPrefix p ck L =
      ((matchRegion s p ck).take L.toNat,
       decide (L.toNat < (matchRegion s p ck).length)) := by
  have h0 : ¬ L < 0 := by omega
  have h1 : ¬ L = 0 := by omega
  simp only [BtreeStore.ListPrefix, h0, if_false, h1, matchRegion, effCk]
  rw [listPrefixLoop_eq p L hL _ [] (by simp)]
  simp

/-- On a key-sorted list, dropping the initial run of keys `< ck` is the
same as filtering out every key `< ck`. -/
theorem dropWhile_eq_filter_of_sorted {l : List StoreElement} (hs : SortedTree l)
    (ck : GoStr) :
    l.dropWhile (fun e => keyLt e.Key ck) = l.filter (fun e => keyLe ck e.Key) := by
  induction l with
  | nil => simp
  | cons x xs ih =>
    rcases List.pairwise_cons.mp hs with ⟨hx, hxs⟩
    by_cases hlt : keyLt x.Key ck
    · rw [List.dropWhile_cons_of_pos (by simpa using hlt), ih hxs]
      have : keyLe ck x.Key = false := by
        simp [keyLe, hlt]
      simp [List.filter_cons, this]
    · have hxle : keyLe ck x.Key = true := by
        simp [keyLe, Bool.not_eq_true] at hlt ⊢
        exact hlt
      rw [List.dropWhile_cons_of_neg (by simpa using hlt)]
      have hall : ∀ y ∈ xs, keyLe ck y.Key = true := by
        intro y hy
        exact keyLe_trans hxle (keyLe_of_lt (hx y hy))
      rw [List.filter_cons_of_pos (by simpa using hxle)]
      rw [List.filter_eq_self.mpr (by intro y hy; simpa using hall y hy)]

/-- On a key-sorted list all of whose keys are `≥` some bound that is
itself `≥ p`, taking while the key has prefix `p` is the same as
filtering: matching keys form a contiguous initial run. -/
theorem takeWhile_eq_filter_of_sorted {l : List StoreElement} (p lo : GoStr)
    (hs : SortedTree l) (hlo : keyLe p lo = true)
    (hall : ∀ e ∈ l, keyLe lo e.Key = true) :
    l.takeWhile (fun e => hasPrefix e.Key p) = l.filter (fun e => hasPrefix e.Key p) := by
  induction l with
  | nil => simp
  | cons x xs ih =>
    rcases List.pairwise_cons.mp hs with ⟨hx, hxs⟩
    by_cases hp : hasPrefix x.Key p
    · rw [List.takeWhile_cons_of_pos (by simpa using hp),
        List.filter_cons_of_pos (by simpa using hp),
        ih hxs (fun e he => hall e (List.mem_cons_of_mem _ he))]
    · rw [List.takeWhile_cons_of_neg (by simpa using hp)]
      have hnone : ∀ y ∈ xs, hasPrefix y.Key p = false := by
        intro y hy
        by_contra hyp
        have hyp' : hasPrefix y.Key p = true := by
          rcases Bool.eq_false_or_eq_true (hasPrefix y.Key p) with h | h
          · exact h
          · exact absurd h hyp
        have hpv : keyLe p x.Key = true :=
          keyLe_trans hlo (hall x (List.mem_cons_self x xs))
        have hvw : keyLe x.Key y.Key = true := keyLe_of_lt (hx y hy)
        exact hp (hasPrefix_of_between hyp' hpv hvw)
      rw [List.filter_cons_of_neg (by simpa using hp)]
      rw [List.filter_eq_nil_iff.mpr (by intro y hy; simpa using hnone y hy)]

end WatchStore

namespace WatchStore

theorem hasPrefix_refl (a : GoStr) : hasPrefix a a = true := by
  induction a with
  | nil => rfl
  | cons x xs ih => simpa [hasPrefix, List.isPrefixOf] using ih

/-- With a lower bound `p ≤ effCk p ck`, the scan region is exactly the
filtered set: keys `≥` the effective continue key carrying prefix `p`. -/
theorem matchRegion_eq_filter {s : BtreeStore} (hs : SortedTree s.tree) {p ck : GoStr}
    (hck : keyLe p (effCk p ck) = true) :
    matchRegion s p ck =
      s.tree.filter (fun e => keyLe (effCk p ck) e.Key && hasPrefix e.Key p) := by
  rw [matchRegion, dropWhile_eq_filter_of_sorted hs]
  rw [takeWhile_eq_filter_of_sorted p (effCk p ck)
    (List.Pairwise.sublist (List.filter_sublist _) hs) hck
    (by
      intro e he
      exact (List.mem_filter.mp he).2)]
  rw [List.filter_filter]
  apply List.filter_congr
  intro e _
  rw [Bool.and_comm]

/-- With an empty continue key the scan region is exactly the elements
whose key has prefix `p`. -/
theorem matchRegion_nil_ck {s : BtreeStore} (hs : SortedTree s.tree) (p : GoStr) :
    matchRegion s p [] = s.tree.filter (fun e => hasPrefix e.Key p) := by
  rw [matchRegion_eq_filter hs (by simp [effCk, keyLe_refl])]
  apply List.filter_congr
  intro e _
  simp only [effCk, if_pos rfl]
  by_cases hp : hasPrefix e.Key p
  · simp [hp, keyLe_of_hasPrefix hp]
  · simp [hp]

theorem matchRegion_sorted {s : BtreeStore} (hs : SortedTree s.tree) (p ck : GoStr) :
    SortedTree (matchRegion s p ck) :=
  List.Pairwise.sublist
    ((List.takeWhile_sublist _).trans (List.dropWhile_sublist _)) hs

theorem matchRegion_subset {s : BtreeStore} (p ck : GoStr) :
    ∀ e ∈ matchRegion s p ck, e ∈ s.tree := by
  intro e he
  exact ((List.takeWhile_sublist _).trans (List.dropWhile_sublist _)).mem he

theorem matchRegion_hasPrefix {s : BtreeStore} (p ck : GoStr) :
    ∀ e ∈ matchRegion s p ck, hasPrefix e.Key p = true := by
  intro e he
  rw [matchRegion] at he
  have h2 := List.mem_takeWhile_imp he
  simpa using h2

theorem sortedTree_nodup {l : List StoreElement} (hs : SortedTree l) : l.Nodup := by
  refine hs.imp ?_
  intro a b hab
  intro hEq
  subst hEq
  simp [keyLt_irrefl] at hab

/-- The specification bundle for `ListPrefix(p, ck, L)` with `L ≥ 0`:
scan/result semantics, the limit bound, `hasMore` correctness, and the
exact-filter characterization for an empty continue key. -/
def ListPrefixSpec (s : BtreeStore) (p ck : GoStr) (L : Int) : Prop :=
  (s.ListPrefix p ck L).1 =
      (matchRegion s p ck).take (if L = 0 then (matchRegion s p ck).length else L.toNat) ∧
  (∀ e ∈ (s.ListPrefix p ck L).1, hasPrefix e.Key p = true) ∧
  List.Pairwise (fun a b => keyLt a.Key b.Key = true) (s.ListPrefix p ck L).1 ∧
  (0 < L → ((s.ListPrefix p ck L).1.length : Int) ≤ L) ∧
  (L = 0 → (s.ListPrefix p ck L).1 = matchRegion s p ck ∧ (s.ListPrefix p ck L).2 = false) ∧
  ((s.ListPrefix p ck L).2 = true ↔
    (s.ListPrefix p ck L).1.length < (matchRegion s p ck).length) ∧
  ((ck = [] ∨ hasPrefix ck p = true) →
    ((s.ListPrefix p ck L).2 = true ↔
      ∃ e ∈ s.tree, keyLe (effCk p ck) e.Key = true ∧ hasPrefix e.Key p = true ∧
        e ∉ (s.ListPrefix p ck L).1)) ∧
  (ck = [] → L = 0 → (s.ListPrefix p ck L).1 = s.tree.filter (fun e => hasPrefix e.Key p))

end WatchStore

namespace WatchStore

theorem effCk_ge {p ck : GoStr} (hck : ck = [] ∨ hasPrefix ck p = true) :
    keyLe p (effCk p ck) = true := by
  rcases hck with h | h
  · subst h
    simpa [effCk] using keyLe_refl p
  · by_cases h0 : ck = []
    · subst h0
      simpa [effCk] using keyLe_refl p
    · rw [effCk, if_neg h0]
      exact keyLe_of_hasPrefix h

theorem mem_matchRegion_iff {s : BtreeStore} (hs : SortedTree s.tree) {p ck : GoStr}
    (hck : keyLe p (effCk p ck) = true) (e : StoreElement) :
    e ∈ matchRegion s p ck ↔
      e ∈ s.tree ∧ keyLe (effCk p ck) e.Key = true ∧ hasPrefix e.Key p = true := by
  rw [matchRegion_eq_filter hs hck, List.mem_filter, Bool.and_eq_true]

/-- C2: `ListPrefix(p, c, L)` scans ascending from `c` (or from `p` when
`c` is empty), includes only elements whose key has `p` as a prefix,
stops at the first key without that prefix, returns at most `L` elements
when `L > 0` and the whole matching run when `L = 0`; `hasMore` is true
iff at least one more matching element exists beyond the returned page;
and `ListPrefix(p, "", 0)` returns exactly the elements with prefix `p`,
in ascending key order, with `hasMore = false`. -/
theorem listPrefix_functional_spec (s : BtreeStore) (hs : SortedTree s.tree)
    (p ck : GoStr) (L : Int) (hL : 0 ≤ L) : ListPrefixSpec s p ck L := by
  have msorted := matchRegion_sorted hs p ck
  have msub := matchRegion_subset (s := s) p ck
  have mpre := matchRegion_hasPrefix (s := s) p ck
  have mnodup := sortedTree_nodup msorted
  rcases eq_or_lt_of_le hL with hL0 | hLpos
  · -- L = 0
    have hL0' : L = 0 := hL0.symm
    subst hL0'
    have hres : (s.ListPrefix p ck 0).1 = matchRegion s p ck := by
      rw [ListPrefix_zero_eq]
    have hmore : (s.ListPrefix p ck 0).2 = false := by
      rw [ListPrefix_zero_eq]
    refine ⟨?_, ?_, ?_, ?_, ?_, ?_, ?_, ?_⟩
    · rw [hres]
      simp
    · intro e he
      exact mpre e (hres ▸ he)
    · rw [hres]; exact msorted
    · intro h; omega
    · intro _; exact ⟨hres, hmore⟩
    · rw [hres, hmore]
      simp
    · intro hck
      rw [hmore]
      constructor
      · intro h; cases h
      · rintro ⟨e, hetree, hele, hepre, hnotin⟩
        exact absurd ((mem_matchRegion_iff hs (effCk_ge hck) e).mpr
          ⟨hetree, hele, hepre⟩) (hres ▸ hnotin)
    · intro h0 _
      subst h0
      rw [hres]
      exact matchRegion_nil_ck hs p
  · -- 0 < L
    have hne : ¬ L = 0 := by omega
    have hres : (s.ListPrefix p ck L).1 = (matchRegion s p ck).take L.toNat := by
      rw [ListPrefix_pos_eq s p ck L hLpos]
    have hmore : (s.ListPrefix p ck L).2 =
        decide (L.toNat < (matchRegion s p ck).length) := by
      rw [ListPrefix_pos_eq s p ck L hLpos]
    have hlen : (s.ListPrefix p ck L).1.length =
        min L.toNat (matchRegion s p ck).length := by
      rw [hres, List.length_take]
    refine ⟨?_, ?_, ?_, ?_, ?_, ?_, ?_, ?_⟩
    · rw [hres, if_neg hne]
    · intro e he
      rw [hres] at he
      exact mpre e ((List.take_sublist _ _).mem he)
    · rw [hres]
      exact List.Pairwise.sublist (List.take_sublist _ _) msorted
    · intro _
      rw [hlen]
      omega
    · intro h; exact absurd h hne
    · rw [hmore, hlen]
      simp only [decide_eq_true_eq]
      omega
    · intro hck
      rw [hmore]
      simp only [decide_eq_true_eq]
      constructor
      · intro hlt
        have hn : L.toNat < (matchRegion s p ck).length := hlt
        refine ⟨(matchRegion s p ck)[L.toNat], msub _ (List.getElem_mem hn), ?_, ?_, ?_⟩
        · exact ((mem_matchRegion_iff hs (effCk_ge hck) _).mp (List.getElem_mem hn)).2.1
        · exact mpre _ (List.getElem_mem hn)
        · rw [hres]
          have hsplit : (matchRegion s p ck).take L.toNat ++
              (matchRegion s p ck).drop L.toNat = matchRegion s p ck :=
            List.take_append_drop _ _
          have hnd : ((matchRegion s p ck).take L.toNat ++
              (matchRegion s p ck).drop L.toNat).Nodup := by
            rw [hsplit]; exact mnodup
          have hdisj := (List.nodup_append.mp hnd).2.2
          have hmemdrop : (matchRegion s p ck)[L.toNat] ∈
              (matchRegion s p ck).drop L.toNat := by
            rw [List.drop_eq_getElem_cons hn]
            exact List.mem_cons_self _ _
          intro hmemtake
          exact hdisj hmemtake hmemdrop
      · rintro ⟨e, hetree, hele, hepre, hnotin⟩
        by_contra hnlt
        have hall : (matchRegion s p ck).length ≤ L.toNat := by omega
        have : (s.ListPrefix p ck L).1 = matchRegion s p ck := by
          rw [hres]
          exact List.take_of_length_le hall
        exact hnotin (this ▸ (mem_matchRegion_iff hs (effCk_ge hck) e).mpr
          ⟨hetree, hele, hepre⟩)
    · intro _ h0
      exact absurd h0 hne

/-- A concrete store used by the witnesses: keys `"/a/x"`, `"/a/y"`,
`"/b/z"` as byte lists, already key-sorted. -/
def demoStore : BtreeStore :=
  ⟨[⟨[1, 1], 10⟩, ⟨[1, 2], 11⟩, ⟨[2, 1], 12⟩]⟩

/-- Witness for C2: the functional specification holds at a concrete
sorted store, prefix `[1]`, empty continue key and limit 1. -/
theorem listPrefix_functional_spec_witness :
    SortedTree demoStore.tree ∧ (0 : Int) ≤ 1 ∧ ListPrefixSpec demoStore [1] [] 1 :=
  ⟨by decide, by decide,
    listPrefix_functional_spec demoStore (by decide) [1] [] 1 (by decide)⟩

end WatchStore

namespace WatchStore

/-- C9: a negative limit to `ListPrefix` is answered with "no results, no
more" — the empty page and `hasMore = false` — rather than an error.
(`Count` takes no limit parameter at all, so no `Count` call can carry a
negative limit.) -/
theorem listPrefix_negative_limit (s : BtreeStore) (p ck : GoStr) (L : Int)
    (hL : L < 0) : s.ListPrefix p ck L = ([], false) := by
  simp [BtreeStore.ListPrefix, hL]

/-- Witness for C9 at the concrete demo store and limit `-1`. -/
theorem listPrefix_negative_limit_witness :
    (-1 : Int) < 0 ∧ demoStore.ListPrefix [1] [] (-1) = ([], false) :=
  ⟨by decide, listPrefix_negative_limit demoStore [1] [] (-1) (by decide)⟩

theorem dropWhile_head_of_mem {l : List StoreElement} (hs : SortedTree l)
    {e : StoreElement} (he : e ∈ l) :
    (l.dropWhile (fun x => keyLt x.Key e.Key)).head? = some e := by
  induction l with
  | nil => cases he
  | cons x xs ih =>
    rcases List.pairwise_cons.mp hs with ⟨hx, hxs⟩
    rcases List.mem_cons.mp he with hEq | hmem
    · subst hEq
      rw [List.dropWhile_cons_of_neg (by simp [keyLt_irrefl])]
      rfl
    · rw [List.dropWhile_cons_of_pos (by simpa using hx e hmem)]
      exact ih hxs hmem

/-- C10: an element whose key equals the prefix is returned (first) by
`ListPrefix(p, "", L)` for every `L ≥ 0`, and `Count(p, "")` counts it:
the empty continue key starts the ascending scan inclusively at `p`. -/
theorem prefix_equal_key_included (s : BtreeStore) (hs : SortedTree s.tree)
    (p : GoStr) (e : StoreElement) (he : e ∈ s.tree) (hkey : e.Key = p)
    (L : Int) (hL : 0 ≤ L) :
    (s.ListPrefix p [] L).1.head? = some e ∧ 1 ≤ s.Count p [] := by
  have hreg : (matchRegion s p []).head? = some e := by
    rw [matchRegion]
    have heff : effCk p [] = p := by simp [effCk]
    rw [heff, ← hkey]
    have hdrop := dropWhile_head_of_mem hs he
    cases hd : s.tree.dropWhile (fun x => keyLt x.Key e.Key) with
    | nil => rw [hd] at hdrop; cases hdrop
    | cons y ys =>
      rw [hd] at hdrop
      have hy : y = e := by simpa using hdrop
      rw [List.takeWhile_cons_of_pos (by rw [hy]; simpa using hasPrefix_refl e.Key)]
      simp [hy]
  refine ⟨?_, ?_⟩
  · rcases eq_or_lt_of_le hL with h0 | hpos
    · have h0' : L = 0 := h0.symm
      subst h0'
      rw [ListPrefix_zero_eq]
      exact hreg
    · rw [ListPrefix_pos_eq s p [] L hpos]
      simp only
      rw [List.head?_take, if_neg (by omega)]
      exact hreg
  · rw [Count_eq]
    have hne : matchRegion s p [] ≠ [] := by
      intro h0
      rw [h0] at hreg
      cases hreg
    exact List.length_pos.mpr hne

/-- Store for the C10 witness: contains the element with key exactly
equal to the prefix `[1]`. -/
def demoStoreP : BtreeStore :=
  ⟨[⟨[1], 5⟩, ⟨[1, 2], 6⟩]⟩

/-- Witness for C10 at a concrete store whose first element's key equals
the prefix. -/
theorem prefix_equal_key_included_witness :
    SortedTree demoStoreP.tree ∧ (⟨[1], 5⟩ : StoreElement) ∈ demoStoreP.tree ∧
      (⟨[1], 5⟩ : StoreElement).Key = [1] ∧ (0 : Int) ≤ 2 ∧
      ((demoStoreP.ListPrefix [1] [] 2).1.head? = some ⟨[1], 5⟩ ∧
        1 ≤ demoStoreP.Count [1] []) :=
  ⟨by decide, by decide, by decide, by decide,
    prefix_equal_key_included demoStoreP (by decide) [1] ⟨[1], 5⟩ (by decide)
      (by decide) 2 (by decide)⟩

end WatchStore

namespace WatchStore

/-- `keyLt a k` and `keyLe (a ++ [0]) k` agree as booleans. -/
theorem keyLt_eq_keyLe_append_zero (a k : GoStr) :
    keyLt a k = keyLe (a ++ [0]) k := by
  have h := keyLt_iff_keyLe_append_zero a k
  cases h1 : keyLt a k <;> cases h2 : keyLe (a ++ [0]) k <;> simp_all

/-- In a sorted list, every element is `≤` the last one. -/
theorem sorted_le_getLast {l : List StoreElement} (hs : SortedTree l)
    {last : StoreElement} (hlast : l.getLast? = some last) :
    ∀ a ∈ l, keyLe a.Key last.Key = true := by
  induction l with
  | nil => cases hlast
  | cons x xs ih =>
    rcases List.pairwise_cons.mp hs with ⟨hx, hxs⟩
    intro a ha
    cases xs with
    | nil =>
      have h1 : x = last := by simpa using hlast
      have h2 : a = x := by simpa using ha
      subst h1; subst h2
      exact keyLe_refl _
    | cons y ys =>
      rw [List.getLast?_cons_cons] at hlast
      rcases List.mem_cons.mp ha with hEq | hmem
      · subst hEq
        have hlmem : last ∈ y :: ys := List.mem_of_getLast?_eq_some hlast
        exact keyLe_of_lt (hx last hlmem)
      · exact ih hxs hlast a hmem

/-- After a page ending in `last`, continuing from `last.Key ++ [0]`
scans exactly the rest of the matching run. -/
theorem matchRegion_after_page {s : BtreeStore} (hs : SortedTree s.tree) {p ck : GoStr}
    (hck : keyLe p (effCk p ck) = true) {n : Nat} {last : StoreElement}
    (hlast : ((matchRegion s p ck).take n).getLast? = some last) :
    keyLe p (effCk p (last.Key ++ [0])) = true ∧
    matchRegion s p (last.Key ++ [0]) = (matchRegion s p ck).drop n := by
  have msorted := matchRegion_sorted hs p ck
  have hlmem : last ∈ matchRegion s p ck :=
    (List.take_sublist _ _).mem (List.mem_of_getLast?_eq_some hlast)
  obtain ⟨hltree, hlle, hlpre⟩ := (mem_matchRegion_iff hs hck last).mp hlmem
  have hcne : last.Key ++ [0] ≠ [] := by simp
  have heff : effCk p (last.Key ++ [0]) = last.Key ++ [0] := by
    rw [effCk, if_neg hcne]
  have hlt_succ : keyLt last.Key (last.Key ++ [0]) = true := by
    rw [keyLt_eq_keyLe_append_zero]
    exact keyLe_refl _
  have hck' : keyLe p (effCk p (last.Key ++ [0])) = true := by
    rw [heff]
    exact keyLe_trans (keyLe_of_hasPrefix hlpre) (keyLe_of_lt hlt_succ)
  refine ⟨hck', ?_⟩
  rw [matchRegion_eq_filter hs hck', heff]
  -- reduce to a filter over the matching run itself
  have hstep1 :
      s.tree.filter (fun e => keyLe (last.Key ++ [0]) e.Key && hasPrefix e.Key p) =
        (matchRegion s p ck).filter (fun e => keyLt last.Key e.Key) := by
    rw [matchRegion_eq_filter hs hck, List.filter_filter]
    apply List.filter_congr
    intro e _
    rw [keyLt_eq_keyLe_append_zero]
    by_cases h1 : keyLe (last.Key ++ [0]) e.Key
    · have h2 : keyLe (effCk p ck) e.Key = true := by
        refine keyLe_trans hlle (keyLe_of_lt ?_)
        rw [keyLt_eq_keyLe_append_zero]
        exact h1
      simp [h1, h2]
    · simp [h1]
  rw [hstep1]
  -- split the run into the page and the rest
  have hsplit : (matchRegion s p ck).take n ++ (matchRegion s p ck).drop n =
      matchRegion s p ck := List.take_append_drop _ _
  rcases List.pairwise_append.mp (by rw [hsplit]; exact msorted) with ⟨hp1, _, hcross⟩
  have hfilter1 : ((matchRegion s p ck).take n).filter
      (fun e => keyLt last.Key e.Key) = [] := by
    apply List.filter_eq_nil_iff.mpr
    intro a ha
    have hle := sorted_le_getLast hp1 hlast a ha
    simp only [keyLe, Bool.not_eq_true'] at hle
    simp [hle]
  have hfilter2 : ((matchRegion s p ck).drop n).filter
      (fun e => keyLt last.Key e.Key) = (matchRegion s p ck).drop n := by
    apply List.filter_eq_self.mpr
    intro b hb
    simpa using hcross last (List.mem_of_getLast?_eq_some hlast) b hb
  have hre : (matchRegion s p ck).filter (fun e => keyLt last.Key e.Key) =
      ((matchRegion s p ck).take n ++ (matchRegion s p ck).drop n).filter
        (fun e => keyLt last.Key e.Key) := by
    rw [hsplit]
  rw [hre, List.filter_append, hfilter1, hfilter2, List.nil_append]

/-- The pagination protocol described by the spec: call
`ListPrefix(p, ck, L)` and, while `hasMore` holds, continue from the
last returned key followed by a null byte.  `fuel` bounds the number of
pages; any value at least the store size suffices. -/
def paginate (s : BtreeStore) (p : GoStr) (L : Int) : Nat → GoStr → List StoreElement
  | 0, _ => []
  | fuel + 1, ck =>
    if (s.ListPrefix p ck L).2 then
      match (s.ListPrefix p ck L).1.getLast? with
      | some last => (s.ListPrefix p ck L).1 ++ paginate s p L fuel (last.Key ++ [0])
      | none => (s.ListPrefix p ck L).1
    else (s.ListPrefix p ck L).1

theorem paginate_eq_matchRegion (s : BtreeStore) (hs : SortedTree s.tree) (p : GoStr)
    (L : Int) (hL : 0 < L) :
    ∀ (fuel : Nat) (ck : GoStr), keyLe p (effCk p ck) = true →
      (matchRegion s p ck).length ≤ fuel →
      paginate s p L fuel ck = matchRegion s p ck := by
  intro fuel
  induction fuel with
  | zero =>
    intro ck _ hlen
    have h0 : matchRegion s p ck = [] := List.length_eq_zero.mp (Nat.le_zero.mp hlen)
    simp [paginate, h0]
  | succ fuel ih =>
    intro ck hck hlen
    have hres : (s.ListPrefix p ck L).1 = (matchRegion s p ck).take L.toNat := by
      rw [ListPrefix_pos_eq s p ck L hL]
    have hmore : (s.ListPrefix p ck L).2 =
        decide (L.toNat < (matchRegion s p ck).length) := by
      rw [ListPrefix_pos_eq s p ck L hL]
    by_cases hm : L.toNat < (matchRegion s p ck).length
    · have hL1 : 1 ≤ L.toNat := by omega
      have hpagelen : ((matchRegion s p ck).take L.toNat).length = L.toNat := by
        rw [List.length_take]
        omega
      have hpage_ne : (matchRegion s p ck).take L.toNat ≠ [] := by
        intro h0
        rw [h0] at hpagelen
        simp at hpagelen
        omega
      have hsome : (((matchRegion s p ck).take L.toNat).getLast?).isSome = true :=
        List.getLast?_isSome.mpr hpage_ne
      obtain ⟨last, hlast⟩ := Option.isSome_iff_exists.mp hsome
      obtain ⟨hck', hdrop⟩ := matchRegion_after_page hs hck hlast
      have hrec : paginate s p L fuel (last.Key ++ [0]) =
          matchRegion s p (last.Key ++ [0]) := by
        apply ih _ hck'
        rw [hdrop, List.length_drop]
        omega
      show (if (s.ListPrefix p ck L).2 then
          match (s.ListPrefix p ck L).1.getLast? with
          | some last => (s.ListPrefix p ck L).1 ++ paginate s p L fuel (last.Key ++ [0])
          | none => (s.ListPrefix p ck L).1
        else (s.ListPrefix p ck L).1) = matchRegion s p ck
      rw [hmore, if_pos (by simpa using hm), hres, hlast]
      simp only
      rw [hrec, hdrop]
      exact List.take_append_drop _ _
    · show (if (s.ListPrefix p ck L).2 then
          match (s.ListPrefix p ck L).1.getLast? with
          | some last => (s.ListPrefix p ck L).1 ++ paginate s p L fuel (last.Key ++ [0])
          | none => (s.ListPrefix p ck L).1
        else (s.ListPrefix p ck L).1) = matchRegion s p ck
      rw [hmore, if_neg (by simpa using hm), hres]
      exact List.take_of_length_le (by omega)

/-- C3: pagination completeness — starting from an empty continue key and
repeatedly continuing from the last returned key plus a null byte until
`hasMore` is false, the concatenation of the pages equals the unlimited
`ListPrefix(p, "", 0)` result, and every page holds at most `L`
elements. -/
theorem pagination_complete (s : BtreeStore) (hs : SortedTree s.tree) (p ck : GoStr)
    (L : Int) (hL : 0 < L) (fuel : Nat) (hfuel : s.tree.length ≤ fuel) :
    paginate s p L fuel [] = (s.ListPrefix p [] 0).1 ∧
    ((s.ListPrefix p ck L).1.length : Int) ≤ L := by
  constructor
  · rw [ListPrefix_zero_eq]
    apply paginate_eq_matchRegion s hs p L hL fuel []
    · simpa [effCk] using keyLe_refl p
    · exact le_trans
        (List.Sublist.length_le
          ((List.takeWhile_sublist _).trans (List.dropWhile_sublist _)))
        hfuel
  · rw [ListPrefix_pos_eq s p ck L hL]
    simp only [List.length_take]
    omega

/-- Witness for C3 at the concrete demo store, prefix `[1]`, limit 1. -/
theorem pagination_complete_witness :
    SortedTree demoStore.tree ∧ (0 : Int) < 1 ∧ demoStore.tree.length ≤ 3 ∧
      (paginate demoStore [1] 1 3 [] = (demoStore.ListPrefix [1] [] 0).1 ∧
        ((demoStore.ListPrefix [1] [2] 1).1.length : Int) ≤ 1) :=
  ⟨by decide, by decide, by decide,
    pagination_complete demoStore (by decide) [1] [2] 1 (by decide) 3 (by decide)⟩

end WatchStore

namespace WatchStore

/-- `continueCache`: the ordered set of cached revisions (the `rev`
B-tree, embedded as an ascending list) plus the revision → snapshot
map. -/
structure ContinueCache where
  revisions : List Nat
  cache : List (Nat × BtreeStore)
  deriving DecidableEq, Repr

/-- `newContinueCache`. -/
def newContinueCache : ContinueCache := ⟨[], []⟩

/-- Go map lookup `c.cache[rv]`. -/
def mapLookup (m : List (Nat × BtreeStore)) (rv : Nat) : Option BtreeStore :=
  (m.find? (fun en => decide (en.1 = rv))).map (·.2)

/-- Go `delete(c.cache, rv)`. -/
def mapDelete (m : List (Nat × BtreeStore)) (rv : Nat) : List (Nat × BtreeStore) :=
  m.filter (fun en => decide (en.1 ≠ rv))

/-- `revisions.ReplaceOrInsert(rev(rv))` on the ascending revision list. -/
def revsInsert : List Nat → Nat → List Nat
  | [], rv => [rv]
  | r :: rest, rv =>
    if rv < r then rv :: r :: rest
    else if r < rv then r :: revsInsert rest rv
    else rv :: rest

/-- `continueCache.Set`: insert only when `rv` is not already cached,
storing `indexer.Clone()`. -/
def ContinueCache.Set (c : ContinueCache) (rv : Nat) (indexer : BtreeStore) :
    ContinueCache :=
  match mapLookup c.cache rv with
  | some _ => c
  | none => ⟨revsInsert c.revisions rv, (rv, indexer.Clone) :: c.cache⟩

/-- `revisions.DescendLessOrEqual(rev(rv), stop-at-first)`: the greatest
revision `≤ rv` of the ascending revision list. -/
def descendFirstLe (l : List Nat) (rv : Nat) : Option Nat :=
  (l.filter (fun r => decide (r ≤ rv))).getLast?

/-- `continueCache.FindEqualOrLower`. -/
def ContinueCache.FindEqualOrLower (c : ContinueCache) (rv : Nat) :
    Option BtreeStore × Nat × Bool :=
  match mapLookup c.cache rv with
  | some st => (some st, rv, true)
  | none =>
    match descendFirstLe c.revisions rv with
    | none => (none, 0, false)
    | some foundRV =>
      match mapLookup c.cache foundRV with
      | some st => (some st, foundRV, true)
      | none => (none, foundRV, false)

/-- The `for c.revisions.Len() > 0` loop of `continueCache.Cleanup`:
delete the minimum revision (and its cache entry) until the minimum
exceeds `rv`. -/
def cleanupLoop (rv : Nat) :
    List Nat → List (Nat × BtreeStore) → List Nat × List (Nat × BtreeStore)
  | [], cache => ([], cache)
  | minRV :: rest, cache =>
    if rv < minRV then (minRV :: rest, cache)
    else cleanupLoop rv rest (mapDelete cache minRV)

/-- `continueCache.Cleanup`. -/
def ContinueCache.Cleanup (c : ContinueCache) (rv : Nat) : ContinueCache :=
  let r := cleanupLoop rv c.revisions c.cache
  ⟨r.1, r.2⟩

/-- A mutation applied to a live store. -/
inductive StoreMutation where
  | add (obj : GoObj)
  | update (obj : GoObj)
  | delete (obj : GoObj)
  | replace (objs : List GoObj)

/-- Apply one mutation to the live store (the state part of the
corresponding `btreeStore` method). -/
def applyMutation (s : BtreeStore) : StoreMutation → BtreeStore
  | .add o => (s.Add o).1
  | .update o => (s.Update o).1
  | .delete o => (s.Delete o).1
  | .replace os => (s.Replace os).1

/-- After `S' := S.Clone()`: the live store and the snapshot, as two
separate heap objects (the btree guarantees copy-on-write isolation). -/
structure CloneWorld where
  live : BtreeStore
  snap : BtreeStore

/-- Take the snapshot. -/
def cloneWorld (s : BtreeStore) : CloneWorld := ⟨s, s.Clone⟩

/-- A later mutation touches only the live store. -/
def stepWorld (w : CloneWorld) (m : StoreMutation) : CloneWorld :=
  ⟨applyMutation w.live m, w.snap⟩

/-- After `continueCache.Set(rv, indexer)`: the live indexer and the
cache holding its clone. -/
structure CacheWorld where
  live : BtreeStore
  cc : ContinueCache

/-- Store the snapshot in the continuation cache. -/
def cacheWorldSet (s : BtreeStore) (c : ContinueCache) (rv : Nat) : CacheWorld :=
  ⟨s, c.Set rv s⟩

/-- A later mutation touches only the live indexer. -/
def stepCacheWorld (w : CacheWorld) (m : StoreMutation) : CacheWorld :=
  ⟨applyMutation w.live m, w.cc⟩

/-- C1: snapshot isolation — after `S' = S.Clone()`, any sequence of
mutations applied to `S` leaves every read operation on `S'` (`Get`,
`GetByKey`, `List`, `ListKeys`, `ListPrefix`, `Count`) exactly as it was
immediately after the clone; and a snapshot stored by
`continueCache.Set(rv, indexer)` is a clone, so later mutations of the
live indexer never change any result read through the cached
snapshot. -/
theorem snapshot_isolation (s : BtreeStore) (muts : List StoreMutation)
    (p ck : GoStr) (L : Int) (k : GoStr) (o : GoObj) (c : ContinueCache) (rv q : Nat) :
    (muts.foldl stepWorld (cloneWorld s)).snap = s.Clone ∧
    (muts.foldl stepWorld (cloneWorld s)).snap.ListPrefix p ck L =
      s.Clone.ListPrefix p ck L ∧
    (muts.foldl stepWorld (cloneWorld s)).snap.GetByKey k = s.Clone.GetByKey k ∧
    (muts.foldl stepWorld (cloneWorld s)).snap.Get o = s.Clone.Get o ∧
    (muts.foldl stepWorld (cloneWorld s)).snap.ListElems = s.Clone.ListElems ∧
    (muts.foldl stepWorld (cloneWorld s)).snap.ListKeys = s.Clone.ListKeys ∧
    (muts.foldl stepWorld (cloneWorld s)).snap.Count p ck = s.Clone.Count p ck ∧
    (muts.foldl stepCacheWorld (cacheWorldSet s c rv)).cc = c.Set rv s ∧
    (muts.foldl stepCacheWorld (cacheWorldSet s c rv)).cc.FindEqualOrLower q =
      (c.Set rv s).FindEqualOrLower q := by
  have hsnap : ∀ (w0 : CloneWorld) (ms : List StoreMutation),
      (ms.foldl stepWorld w0).snap = w0.snap := by
    intro w0 ms
    induction ms generalizing w0 with
    | nil => rfl
    | cons m rest ih =>
      rw [List.foldl_cons, ih]
      rfl
  have hcc : ∀ (w0 : CacheWorld) (ms : List StoreMutation),
      (ms.foldl stepCacheWorld w0).cc = w0.cc := by
    intro w0 ms
    induction ms generalizing w0 with
    | nil => rfl
    | cons m rest ih =>
      rw [List.foldl_cons, ih]
      rfl
  have h1 : (muts.foldl stepWorld (cloneWorld s)).snap = s.Clone := hsnap _ _
  have h2 : (muts.foldl stepCacheWorld (cacheWorldSet s c rv)).cc = c.Set rv s :=
    hcc _ _
  exact ⟨h1, by rw [h1], by rw [h1], by rw [h1], by rw [h1], by rw [h1], by rw [h1],
    h2, by rw [h2]⟩

end WatchStore

namespace WatchStore

theorem mapLookup_nil (rv : Nat) : mapLookup [] rv = none := rfl

theorem mapLookup_cons (en : Nat × BtreeStore) (m : List (Nat × BtreeStore)) (rv : Nat) :
    mapLookup (en :: m) rv = if en.1 = rv then some en.2 else mapLookup m rv := by
  by_cases h : en.1 = rv
  · simp [mapLookup, List.find?_cons, h]
  · simp [mapLookup, List.find?_cons, h]

theorem mapLookup_mapDelete (m : List (Nat × BtreeStore)) (x r : Nat) :
    mapLookup (mapDelete m x) r = if r = x then none else mapLookup m r := by
  induction m with
  | nil => by_cases h : r = x <;> simp [mapDelete, mapLookup_nil, h]
  | cons en rest ih =>
    by_cases hx : en.1 = x
    · rw [mapDelete, List.filter_cons_of_neg (by simp [hx])]
      rw [show rest.filter (fun en => decide (en.1 ≠ x)) = mapDelete rest x from rfl, ih]
      by_cases hr : r = x
      · simp [hr]
      · rw [if_neg hr, if_neg hr, mapLookup_cons, if_neg (by rw [hx]; exact fun h => hr h.symm)]
    · rw [mapDelete, List.filter_cons_of_pos (by simp [hx])]
      rw [show rest.filter (fun en => decide (en.1 ≠ x)) = mapDelete rest x from rfl]
      rw [mapLookup_cons, mapLookup_cons, ih]
      by_cases he : en.1 = r
      · have hr : ¬ r = x := by rw [← he]; exact fun h => hx h
        simp [he, hr]
      · simp [he]

theorem mapLookup_isSome_key {m : List (Nat × BtreeStore)} {r : Nat}
    (h : (mapLookup m r).isSome = true) : ∃ en ∈ m, en.1 = r := by
  induction m with
  | nil => simp [mapLookup_nil] at h
  | cons en rest ih =>
    rw [mapLookup_cons] at h
    by_cases he : en.1 = r
    · exact ⟨en, List.mem_cons_self _ _, he⟩
    · rw [if_neg he] at h
      obtain ⟨en', hmem, hkey⟩ := ih h
      exact ⟨en', List.mem_cons_of_mem _ hmem, hkey⟩

theorem mem_revsInsert (l : List Nat) (rv x : Nat) :
    x ∈ revsInsert l rv ↔ x = rv ∨ x ∈ l := by
  induction l with
  | nil => simp [revsInsert]
  | cons r rest ih =>
    by_cases h1 : rv < r
    · simp only [revsInsert, if_pos h1, List.mem_cons]
    · by_cases h2 : r < rv
      · simp only [revsInsert, if_neg h1, if_pos h2, List.mem_cons, ih]
        tauto
      · have : r = rv := by omega
        subst this
        simp only [revsInsert, if_neg h1, if_neg h2, List.mem_cons]
        tauto

theorem revsInsert_pairwise {l : List Nat} (hl : l.Pairwise (· < ·)) (rv : Nat) :
    (revsInsert l rv).Pairwise (· < ·) := by
  induction l with
  | nil => simp [revsInsert]
  | cons r rest ih =>
    rcases List.pairwise_cons.mp hl with ⟨hr, hrest⟩
    by_cases h1 : rv < r
    · rw [revsInsert, if_pos h1]
      refine List.pairwise_cons.mpr ⟨?_, hl⟩
      intro y hy
      rcases List.mem_cons.mp hy with hEq | hmem
      · omega
      · have := hr y hmem
        omega
    · by_cases h2 : r < rv
      · rw [revsInsert, if_neg h1, if_pos h2]
        refine List.pairwise_cons.mpr ⟨?_, ih hrest⟩
        intro y hy
        rcases (mem_revsInsert rest rv y).mp hy with hEq | hmem
        · omega
        · exact hr y hmem
      · have : r = rv := by omega
        subst this
        rw [revsInsert, if_neg h1, if_neg h2]
        exact hl

theorem sorted_nat_le_getLast {l : List Nat} (hl : l.Pairwise (· < ·))
    {x : Nat} (hx : l.getLast? = some x) : ∀ y ∈ l, y ≤ x := by
  induction l with
  | nil => cases hx
  | cons a as ih =>
    rcases List.pairwise_cons.mp hl with ⟨ha, has⟩
    intro y hy
    cases as with
    | nil =>
      have h1 : a = x := by simpa using hx
      have h2 : y = a := by simpa using hy
      omega
    | cons b bs =>
      rw [List.getLast?_cons_cons] at hx
      rcases List.mem_cons.mp hy with hEq | hmem
      · subst hEq
        have hxmem : x ∈ b :: bs := List.mem_of_getLast?_eq_some hx
        have := ha x hxmem
        omega
      · exact ih has hx y hmem

theorem getLast_eq_of_max {l : List Nat} (hl : l.Pairwise (· < ·))
    {x : Nat} (hx : x ∈ l) (hmax : ∀ y ∈ l, y ≤ x) : l.getLast? = some x := by
  induction l with
  | nil => cases hx
  | cons a as ih =>
    rcases List.pairwise_cons.mp hl with ⟨ha, has⟩
    cases as with
    | nil =>
      have : x = a := by simpa using hx
      simp [this]
    | cons b bs =>
      rw [List.getLast?_cons_cons]
      rcases List.mem_cons.mp hx with hEq | hmem
      · subst hEq
        have hb : x < b := ha b (List.mem_cons_self _ _)
        have := hmax b (List.mem_cons_of_mem _ (List.mem_cons_self _ _))
        omega
      · exact ih has hmem (fun y hy => hmax y (List.mem_cons_of_mem _ hy))

/-- Well-formedness of a continuation cache, maintained by `Set` and
`Cleanup` from `newContinueCache`: revisions ascending, and the
revision set and the cache keys coincide. -/
abbrev ContinueCache.WF (c : ContinueCache) : Prop :=
  c.revisions.Pairwise (· < ·) ∧
  (∀ r ∈ c.revisions, (mapLookup c.cache r).isSome = true) ∧
  (∀ en ∈ c.cache, en.1 ∈ c.revisions)

theorem WF_mem_iff {c : ContinueCache} (h : c.WF) (r : Nat) :
    r ∈ c.revisions ↔ (mapLookup c.cache r).isSome = true := by
  constructor
  · exact h.2.1 r
  · intro hiso
    obtain ⟨en, hmem, hkey⟩ := mapLookup_isSome_key hiso
    exact hkey ▸ h.2.2 en hmem

end WatchStore

namespace WatchStore

theorem cleanupLoop_spec (rv : Nat) :
    ∀ (revs : List Nat) (cache : List (Nat × BtreeStore)),
      revs.Pairwise (· < ·) →
      (∀ r : Nat, r ∈ revs ↔ (mapLookup cache r).isSome = true) →
      (cleanupLoop rv revs cache).1 = revs.filter (fun r => decide (rv < r)) ∧
      (∀ r : Nat, mapLookup (cleanupLoop rv revs cache).2 r =
        if rv < r then mapLookup cache r else none) := by
  intro revs
  induction revs with
  | nil =>
    intro cache _ hcorr
    refine ⟨rfl, ?_⟩
    intro r
    have hnone : mapLookup cache r = none := by
      have h1 : ¬ (mapLookup cache r).isSome = true := by
        rw [← hcorr r]
        simp
      cases hm : mapLookup cache r with
      | none => rfl
      | some st => rw [hm] at h1; simp at h1
    by_cases h : rv < r
    · rw [if_pos h]
      rfl
    · rw [if_neg h]
      exact hnone
  | cons minRV rest ih =>
    intro cache hp hcorr
    rcases List.pairwise_cons.mp hp with ⟨hmin, hrest⟩
    have hstep : cleanupLoop rv (minRV :: rest) cache =
        if rv < minRV then (minRV :: rest, cache)
        else cleanupLoop rv rest (mapDelete cache minRV) := rfl
    by_cases hbr : rv < minRV
    · rw [hstep, if_pos hbr]
      refine ⟨?_, ?_⟩
      · rw [List.filter_cons_of_pos (by simpa using hbr)]
        rw [List.filter_eq_self.mpr ?_]
        intro y hy
        have := hmin y hy
        simp only [decide_eq_true_eq]
        omega
      · intro r
        by_cases h : rv < r
        · rw [if_pos h]
        · rw [if_neg h]
          have hnr : r ∉ minRV :: rest := by
            intro hmem
            rcases List.mem_cons.mp hmem with hEq | hm2
            · omega
            · have := hmin r hm2
              omega
          have h1 : ¬ (mapLookup cache r).isSome = true := by
            rw [← hcorr r]
            exact hnr
          cases hm : mapLookup cache r with
          | none => rfl
          | some st => rw [hm] at h1; simp at h1
    · rw [hstep, if_neg hbr]
      have hcorr' : ∀ r : Nat,
          r ∈ rest ↔ (mapLookup (mapDelete cache minRV) r).isSome = true := by
        intro r
        rw [mapLookup_mapDelete]
        by_cases hr : r = minRV
        · subst hr
          constructor
          · intro hmem
            have := hmin _ hmem
            omega
          · intro hfalse
            rw [if_pos rfl] at hfalse
            simp at hfalse
        · rw [if_neg hr, ← hcorr r]
          constructor
          · exact List.mem_cons_of_mem _
          · intro hmem
            rcases List.mem_cons.mp hmem with hEq | hm2
            · exact absurd hEq hr
            · exact hm2
      obtain ⟨h1, h2⟩ := ih (mapDelete cache minRV) hrest hcorr'
      refine ⟨?_, ?_⟩
      · rw [h1, List.filter_cons_of_neg (by simpa using hbr)]
      · intro r
        rw [h2 r]
        by_cases h : rv < r
        · rw [if_pos h, if_pos h, mapLookup_mapDelete, if_neg (by omega)]
        · rw [if_neg h, if_neg h]

/-- The specification bundle of the (amended) `Cleanup(rv)` behaviour. -/
def CleanupSpec (c : ContinueCache) (rv : Nat) : Prop :=
  (c.Cleanup rv).revisions = c.revisions.filter (fun r => decide (rv < r)) ∧
  (∀ r : Nat, r ∈ (c.Cleanup rv).revisions ↔ r ∈ c.revisions ∧ rv < r) ∧
  (∀ r : Nat, mapLookup (c.Cleanup rv).cache r =
    if rv < r then mapLookup c.cache r else none) ∧
  (∀ r : Nat, r ≤ rv → ((c.Cleanup rv).FindEqualOrLower r).2.2 = false)

/-- C5 (amended): `Cleanup(rv)` removes exactly the cached revisions
`≤ rv` — a revision `r` survives iff `r > rv` — and `FindEqualOrLower`
on any removed revision afterwards reports `ok = false`. -/
theorem cleanup_removes_le (c : ContinueCache) (hwf : c.WF) (rv : Nat) :
    CleanupSpec c rv := by
  obtain ⟨h1, h2⟩ :=
    cleanupLoop_spec rv c.revisions c.cache hwf.1 (fun r => WF_mem_iff hwf r)
  have hrev : (c.Cleanup rv).revisions =
      c.revisions.filter (fun r => decide (rv < r)) := h1
  have hcache : ∀ r : Nat, mapLookup (c.Cleanup rv).cache r =
      if rv < r then mapLookup c.cache r else none := h2
  refine ⟨hrev, ?_, hcache, ?_⟩
  · intro r
    rw [hrev, List.mem_filter]
    simp
  · intro r hr
    have hl : mapLookup (c.Cleanup rv).cache r = none := by
      rw [hcache r, if_neg (by omega)]
    have hd : descendFirstLe (c.Cleanup rv).revisions r = none := by
      rw [descendFirstLe, List.getLast?_eq_none_iff]
      apply List.filter_eq_nil_iff.mpr
      intro x hx
      rw [hrev] at hx
      have h3 := (List.mem_filter.mp hx).2
      simp only [decide_eq_true_eq] at h3 ⊢
      omega
    rw [ContinueCache.FindEqualOrLower, hl, hd]

/-- C5 counterexample: with revision 5 cached, `Cleanup(5)` removes
revision 5 itself even though `5 ≥ 5` — the loop also deletes the
minimum when it equals `rv`, i.e. it removes revisions `≤ rv`, not
`< rv`. -/
theorem cleanup_strictly_less_counterexample :
    5 ∈ (newContinueCache.Set 5 demoStore).revisions ∧
    ((newContinueCache.Set 5 demoStore).Cleanup 5).revisions = [] := by decide

/-- A concrete well-formed continuation cache for the witnesses. -/
def demoCC : ContinueCache :=
  ⟨[3, 7], [(3, demoStore), (7, demoStoreP)]⟩

/-- Witness for the amended C5 at the concrete cache and `rv = 5`. -/
theorem cleanup_removes_le_witness :
    demoCC.WF ∧ CleanupSpec demoCC 5 :=
  ⟨by decide, cleanup_removes_le demoCC (by decide) 5⟩

end WatchStore

namespace WatchStore

/-- A second concrete store, different from `demoStore`. -/
def demoStoreB : BtreeStore := ⟨[⟨[9], 99⟩]⟩

/-- C6 counterexample: when `R` is already cached, `Set(R, idx)` is a
no-op, so `FindEqualOrLower(R)` afterwards returns the previously cached
snapshot rather than the clone of `idx`. -/
theorem findEqualOrLower_roundtrip_counterexample :
    ((newContinueCache.Set 5 demoStore).Set 5 demoStoreB).FindEqualOrLower 5 =
      (some demoStore.Clone, 5, true) ∧
    demoStore.Clone ≠ demoStoreB.Clone := by decide

/-- The specification bundle of the (amended) `FindEqualOrLower`
behaviour together with the `Set` round trip on a fresh revision. -/
def FindSpec (c : ContinueCache) (rv R k : Nat) (idx : BtreeStore) : Prop :=
  ((c.FindEqualOrLower rv).2.2 = true ↔ ∃ r ∈ c.revisions, r ≤ rv) ∧
  ((c.FindEqualOrLower rv).2.2 = true →
    (c.FindEqualOrLower rv).2.1 ∈ c.revisions ∧
    (c.FindEqualOrLower rv).2.1 ≤ rv ∧
    (∀ r ∈ c.revisions, r ≤ rv → r ≤ (c.FindEqualOrLower rv).2.1) ∧
    (c.FindEqualOrLower rv).1 = mapLookup c.cache (c.FindEqualOrLower rv).2.1) ∧
  (c.Set R idx).FindEqualOrLower R = (some idx.Clone, R, true) ∧
  (c.Set R idx).FindEqualOrLower (R + k) = (some idx.Clone, R, true)

/-- C6 (amended): `FindEqualOrLower(rv)` finds the greatest cached
revision `≤ rv` and its snapshot, with `ok = false` when none exists;
and, provided `R` is not already cached, `Set(R, idx)` then
`FindEqualOrLower(R)` returns `(idx.Clone, R, true)`, as does
`FindEqualOrLower(R + k)` for an uncached `R + k > R` with no cached
revision in between. -/
theorem findEqualOrLower_correct (c : ContinueCache) (hwf : c.WF) (rv R k : Nat)
    (idx : BtreeStore) (hR : R ∉ c.revisions) (hk : 0 < k)
    (hRk : R + k ∉ c.revisions) (hhi : ∀ r ∈ c.revisions, r ≤ R + k → r ≤ R) :
    FindSpec c rv R k idx := by
  have hAB : ((c.FindEqualOrLower rv).2.2 = true ↔ ∃ r ∈ c.revisions, r ≤ rv) ∧
      ((c.FindEqualOrLower rv).2.2 = true →
        (c.FindEqualOrLower rv).2.1 ∈ c.revisions ∧
        (c.FindEqualOrLower rv).2.1 ≤ rv ∧
        (∀ r ∈ c.revisions, r ≤ rv → r ≤ (c.FindEqualOrLower rv).2.1) ∧
        (c.FindEqualOrLower rv).1 = mapLookup c.cache (c.FindEqualOrLower rv).2.1) := by
    cases hm : mapLookup c.cache rv with
    | some st =>
      have hfe : c.FindEqualOrLower rv = (some st, rv, true) := by
        simp only [ContinueCache.FindEqualOrLower, hm]
      have hrvmem : rv ∈ c.revisions :=
        (WF_mem_iff hwf rv).mpr (by rw [hm]; rfl)
      rw [hfe]
      refine ⟨⟨fun _ => ⟨rv, hrvmem, le_refl rv⟩, fun _ => rfl⟩, fun _ => ?_⟩
      exact ⟨hrvmem, le_refl rv, fun r _ hr => hr, by rw [hm]⟩
    | none =>
      cases hd : descendFirstLe c.revisions rv with
      | none =>
        have hfe : c.FindEqualOrLower rv = (none, 0, false) := by
          simp only [ContinueCache.FindEqualOrLower, hm, hd]
        rw [hfe]
        constructor
        · constructor
          · intro h; cases h
          · rintro ⟨r, hrmem, hrle⟩
            rw [descendFirstLe, List.getLast?_eq_none_iff] at hd
            have : r ∈ c.revisions.filter (fun x => decide (x ≤ rv)) :=
              List.mem_filter.mpr ⟨hrmem, by simpa using hrle⟩
            rw [hd] at this
            cases this
        · intro h; cases h
      | some foundRV =>
        have hfmem : foundRV ∈ c.revisions.filter (fun x => decide (x ≤ rv)) :=
          List.mem_of_getLast?_eq_some hd
        have hfrev : foundRV ∈ c.revisions := (List.mem_filter.mp hfmem).1
        have hfle : foundRV ≤ rv := by
          have := (List.mem_filter.mp hfmem).2
          simpa using this
        have hiso : (mapLookup c.cache foundRV).isSome = true :=
          (WF_mem_iff hwf foundRV).mp hfrev
        obtain ⟨st, hst⟩ := Option.isSome_iff_exists.mp hiso
        have hfe : c.FindEqualOrLower rv = (some st, foundRV, true) := by
          simp only [ContinueCache.FindEqualOrLower, hm, hd, hst]
        rw [hfe]
        refine ⟨⟨fun _ => ⟨foundRV, hfrev, hfle⟩, fun _ => rfl⟩, fun _ => ?_⟩
        refine ⟨hfrev, hfle, ?_, by rw [hst]⟩
        intro r hrmem hrle
        exact sorted_nat_le_getLast
          (List.Pairwise.sublist (List.filter_sublist _) hwf.1) hd r
          (List.mem_filter.mpr ⟨hrmem, by simpa using hrle⟩)
  have hcR : mapLookup c.cache R = none := by
    cases hm : mapLookup c.cache R with
    | none => rfl
    | some st =>
      exact absurd ((WF_mem_iff hwf R).mpr (by rw [hm]; rfl)) hR
  have hset : c.Set R idx =
      ⟨revsInsert c.revisions R, (R, idx.Clone) :: c.cache⟩ := by
    rw [ContinueCache.Set, hcR]
  have hlookR : mapLookup (c.Set R idx).cache R = some idx.Clone := by
    rw [hset, mapLookup_cons, if_pos rfl]
  have hC : (c.Set R idx).FindEqualOrLower R = (some idx.Clone, R, true) := by
    simp only [ContinueCache.FindEqualOrLower, hlookR]
  have hcRk : mapLookup c.cache (R + k) = none := by
    cases hm : mapLookup c.cache (R + k) with
    | none => rfl
    | some st =>
      exact absurd ((WF_mem_iff hwf (R + k)).mpr (by rw [hm]; rfl)) hRk
  have hlookRk : mapLookup (c.Set R idx).cache (R + k) = none := by
    rw [hset, mapLookup_cons, if_neg (by omega)]
    exact hcRk
  have hdesc : descendFirstLe (c.Set R idx).revisions (R + k) = some R := by
    rw [hset, descendFirstLe]
    apply getLast_eq_of_max
    · exact List.Pairwise.sublist (List.filter_sublist _)
        (revsInsert_pairwise hwf.1 R)
    · exact List.mem_filter.mpr
        ⟨(mem_revsInsert c.revisions R R).mpr (Or.inl rfl), by simp⟩
    · intro y hy
      rcases List.mem_filter.mp hy with ⟨hyi, hyle⟩
      rcases (mem_revsInsert c.revisions R y).mp hyi with hEq | hmem
      · omega
      · exact hhi y hmem (by simpa using hyle)
  have hD : (c.Set R idx).FindEqualOrLower (R + k) = (some idx.Clone, R, true) := by
    simp only [ContinueCache.FindEqualOrLower, hlookRk, hdesc, hlookR]
  exact ⟨hAB.1, hAB.2, hC, hD⟩

/-- Witness for the amended C6 at the concrete cache `demoCC`. -/
theorem findEqualOrLower_correct_witness :
    demoCC.WF ∧ 4 ∉ demoCC.revisions ∧ 0 < 2 ∧ (4 + 2 : Nat) ∉ demoCC.revisions ∧
      (∀ r ∈ demoCC.revisions, r ≤ 4 + 2 → r ≤ 4) ∧
      FindSpec demoCC 3 4 2 demoStoreB :=
  ⟨by decide, by decide, by decide, by decide, by decide,
    findEqualOrLower_correct demoCC (by decide) 3 4 2 demoStoreB (by decide)
      (by decide) (by decide) (by decide)⟩

end WatchStore

namespace WatchStore

/-- One index of the `indexer`: the Go
`map[string]map[string]*storeElement` for one index name, flattened to
(indexValue, key, stored pointer) entries; a value whose key set would be
empty simply has no entries. -/
abbrev Index := List (String × GoStr × Option StoreElement)

/-- `indexer.indices`: index name → index. -/
abbrev Indices := List (String × Index)

/-- A `cache.IndexFunc` that never fails: element → index values. -/
abbrev IndexFunc := StoreElement → List String

/-- `cache.Indexers`: index name → extraction function. -/
abbrev GoIndexers := List (String × IndexFunc)

/-- `indexer`. -/
structure Indexer where
  indices : Indices
  indexers : GoIndexers

/-- `newIndexer`. -/
def newIndexer (indexers : GoIndexers) : Indexer := ⟨[], indexers⟩

/-- `indexer.add`: `set[key] = obj` under `index[value]` (the stored Go
pointer may in principle be nil, hence `Option`). -/
def indexAdd (key : GoStr) (value : String) (obj : Option StoreElement)
    (index : Index) : Index :=
  (value, key, obj) ::
    index.filter (fun en => !(decide (en.1 = value) && decide (en.2.1 = key)))

/-- `indexer.delete`: remove `key` from `index[value]`; in the flattened
representation a value with an empty set disappears by itself. -/
def indexDelete (key : GoStr) (value : String) (index : Index) : Index :=
  index.filter (fun en => !(decide (en.1 = value) && decide (en.2.1 = key)))

/-- `i.indices[name]` (a nil map reads as empty). -/
def indicesGet (indices : Indices) (name : String) : Index :=
  match indices.find? (fun en => decide (en.1 = name)) with
  | some en => en.2
  | none => []

/-- `i.indices[name] = index`. -/
def indicesSet (indices : Indices) (name : String) (index : Index) : Indices :=
  (name, index) :: indices.filter (fun en => !decide (en.1 = name))

/-- The `oldIndexValues`/`indexValues` computation of
`indexer.updateElem`: a nil object yields no values. -/
def extractVals (f : IndexFunc) : Option StoreElement → List String
  | some o => f o
  | none => []

/-- The per-index body of `indexer.updateElem`: the single-unchanged-value
fast path calls `add` alone; otherwise delete under every old value, then
add under every new value. -/
def updateIndex (key : GoStr) (f : IndexFunc) (oldObj newObj : Option StoreElement)
    (index : Index) : Index :=
  let oldIndexValues := extractVals f oldObj
  let indexValues := extractVals f newObj
  if indexValues.length = 1 ∧ oldIndexValues.length = 1 ∧
      indexValues.headD "" = oldIndexValues.headD "" then
    indexAdd key (indexValues.headD "") newObj index
  else
    indexValues.foldl (fun ix v => indexAdd key v newObj ix)
      (oldIndexValues.foldl (fun ix w => indexDelete key w ix) index)

/-- The `for name, indexFunc := range i.indexers` loop of
`indexer.updateElem`. -/
def updateElemLoop (key : GoStr) (oldObj newObj : Option StoreElement) :
    GoIndexers → Indices → Indices
  | [], indices => indices
  | (name, f) :: rest, indices =>
    updateElemLoop key oldObj newObj rest
      (indicesSet indices name
        (updateIndex key f oldObj newObj (indicesGet indices name)))

/-- `indexer.updateElem` (with error-free extraction functions the error
return is always nil). -/
def Indexer.updateElem (i : Indexer) (key : GoStr)
    (oldObj newObj : Option StoreElement) : Indexer :=
  ⟨updateElemLoop key oldObj newObj i.indexers i.indices, i.indexers⟩

/-- `indexer.ByIndex`. -/
def Indexer.ByIndex (i : Indexer) (indexName indexValue : String) :
    Except String (List (Option StoreElement)) :=
  match i.indexers.find? (fun en => decide (en.1 = indexName)) with
  | none => Except.error "index does not exist"
  | some _ =>
    Except.ok (((indicesGet i.indices indexName).filter
      (fun en => decide (en.1 = indexValue))).map (fun en => en.2.2))

/-- The object loop of `indexer.Replace` after resetting the indices. -/
def replaceIdxLoop : Indexer → List GoObj → Indexer × Option String
  | ix, [] => (ix, none)
  | ix, o :: rest =>
    match o with
    | .elem e => replaceIdxLoop (ix.updateElem e.Key none (some e)) rest
    | _ => (ix, some "obj not a storeElement")

/-- `indexer.Replace`: reset all indices, then replay
`updateElem(key, nil, elem)` for every object. -/
def Indexer.Replace (i : Indexer) (objs : List GoObj) : Indexer × Option String :=
  replaceIdxLoop ⟨[], i.indexers⟩ objs

/-- `threadedStoreIndexer` (the lock serializes access; state is the
store plus the indexer). -/
structure ThreadedStoreIndexer where
  store : BtreeStore
  indexer : Indexer

/-- `newThreadedBtreeStoreIndexer`. -/
def newThreadedBtreeStoreIndexer (indexers : GoIndexers) : ThreadedStoreIndexer :=
  ⟨newBtreeStore, newIndexer indexers⟩

/-- `threadedStoreIndexer.addOrUpdate`: validate, capture the prior
element while storing the new one, then update the indices. -/
def ThreadedStoreIndexer.addOrUpdate (si : ThreadedStoreIndexer) (obj : GoObj) :
    ThreadedStoreIndexer × Option String :=
  match obj with
  | .nil => (si, some "obj cannot be nil")
  | .other => (si, some "obj not a storeElement")
  | .elem newElem =>
    let r := si.store.addOrUpdateElem newElem
    (⟨r.1, si.indexer.updateElem newElem.Key r.2 (some newElem)⟩, none)

/-- `threadedStoreIndexer.Add`. -/
def ThreadedStoreIndexer.Add (si : ThreadedStoreIndexer) (obj : GoObj) :
    ThreadedStoreIndexer × Option String :=
  si.addOrUpdate obj

/-- `threadedStoreIndexer.Update`. -/
def ThreadedStoreIndexer.Update (si : ThreadedStoreIndexer) (obj : GoObj) :
    ThreadedStoreIndexer × Option String :=
  si.addOrUpdate obj

/-- `threadedStoreIndexer.Delete`: the type assertion rejects nil and
wrong dynamic types; deleting an absent key leaves the indices alone. -/
def ThreadedStoreIndexer.Delete (si : ThreadedStoreIndexer) (obj : GoObj) :
    ThreadedStoreIndexer × Option String :=
  match obj with
  | .elem storeElem =>
    let r := si.store.deleteElem storeElem
    match r.2 with
    | none => (⟨r.1, si.indexer⟩, none)
    | some oldObj =>
      (⟨r.1, si.indexer.updateElem storeElem.Key (some oldObj) none⟩, none)
  | _ => (si, some "obj not a storeElement")

/-- `threadedStoreIndexer.Replace`: replace the store first; only on
success replace the indexer. -/
def ThreadedStoreIndexer.Replace (si : ThreadedStoreIndexer) (objs : List GoObj) :
    ThreadedStoreIndexer × Option String :=
  let r := si.store.Replace objs
  match r.2 with
  | some err => (⟨r.1, si.indexer⟩, some err)
  | none =>
    let ri := si.indexer.Replace objs
    (⟨r.1, ri.1⟩, ri.2)

/-- `threadedStoreIndexer.ByIndex`. -/
def ThreadedStoreIndexer.ByIndex (si : ThreadedStoreIndexer)
    (indexName indexValue : String) : Except String (List (Option StoreElement)) :=
  si.indexer.ByIndex indexName indexValue

end WatchStore

namespace WatchStore

/-- C8: passing a nil object or an object of the wrong dynamic type to
the facade's `Add`, `Update` or `Delete` returns a non-nil error
synchronously and leaves the store and every index exactly unchanged. -/
theorem facade_invalid_input_atomic (si : ThreadedStoreIndexer) (obj : GoObj)
    (hbad : obj = GoObj.nil ∨ obj = GoObj.other) :
    ((si.Add obj).1 = si ∧ (si.Add obj).2 ≠ none) ∧
    ((si.Update obj).1 = si ∧ (si.Update obj).2 ≠ none) ∧
    ((si.Delete obj).1 = si ∧ (si.Delete obj).2 ≠ none) := by
  rcases hbad with h | h <;> subst h <;>
    exact ⟨⟨rfl, by simp [ThreadedStoreIndexer.Add, ThreadedStoreIndexer.addOrUpdate]⟩,
      ⟨rfl, by simp [ThreadedStoreIndexer.Update, ThreadedStoreIndexer.addOrUpdate]⟩,
      ⟨rfl, by simp [ThreadedStoreIndexer.Delete]⟩⟩

/-- A concrete extraction function for the witnesses: indexes every
element under a single namespace-like value derived from its first key
byte. -/
def demoIdxFunc : IndexFunc :=
  fun e => [if e.Key.headD 0 = 1 then "ns1" else "ns2"]

/-- A concrete facade for the witnesses. -/
def demoFacade : ThreadedStoreIndexer :=
  ⟨demoStore, ⟨[("namespace", [("ns1", [1, 1], some ⟨[1, 1], 10⟩)])],
    [("namespace", demoIdxFunc)]⟩⟩

/-- Witness for C8 at a concrete facade and the nil object. -/
theorem facade_invalid_input_atomic_witness :
    (GoObj.nil = GoObj.nil ∨ GoObj.nil = GoObj.other) ∧
    (((demoFacade.Add GoObj.nil).1 = demoFacade ∧ (demoFacade.Add GoObj.nil).2 ≠ none) ∧
     ((demoFacade.Update GoObj.nil).1 = demoFacade ∧ (demoFacade.Update GoObj.nil).2 ≠ none) ∧
     ((demoFacade.Delete GoObj.nil).1 = demoFacade ∧ (demoFacade.Delete GoObj.nil).2 ≠ none)) :=
  ⟨Or.inl rfl, facade_invalid_input_atomic demoFacade GoObj.nil (Or.inl rfl)⟩

end WatchStore

namespace WatchStore

theorem indicesGet_indicesSet_same (indices : Indices) (name : String) (index : Index) :
    indicesGet (indicesSet indices name index) name = index := by
  simp [indicesGet, indicesSet, List.find?_cons]

theorem indicesGet_indicesSet_other (indices : Indices) (name name' : String)
    (index : Index) (h : name' ≠ name) :
    indicesGet (indicesSet indices name index) name' = indicesGet indices name' := by
  rw [indicesGet, indicesSet]
  rw [List.find?_cons_of_neg _ (by simpa using fun hEq => h hEq.symm)]
  rw [indicesGet]
  congr 1
  induction indices with
  | nil => rfl
  | cons en rest ih =>
    by_cases he : en.1 = name
    · rw [List.filter_cons_of_neg (by simpa using he)]
      rw [List.find?_cons_of_neg _ (by simp [he]; exact fun hEq => h hEq.symm)]
      exact ih
    · rw [List.filter_cons_of_pos (by simpa using he)]
      by_cases hf : en.1 = name'
      · rw [List.find?_cons_of_pos _ (by simpa using hf),
          List.find?_cons_of_pos _ (by simpa using hf)]
      · rw [List.find?_cons_of_neg _ (by simpa using hf),
          List.find?_cons_of_neg _ (by simpa using hf)]
        exact ih

theorem updateElemLoop_get_notmem (key : GoStr) (oldObj newObj : Option StoreElement) :
    ∀ (idxs : GoIndexers) (indices : Indices) (name : String),
      name ∉ idxs.map Prod.fst →
      indicesGet (updateElemLoop key oldObj newObj idxs indices) name =
        indicesGet indices name := by
  intro idxs
  induction idxs with
  | nil => intro indices name _; rfl
  | cons en rest ih =>
    intro indices name hnot
    obtain ⟨n, f⟩ := en
    simp only [List.map_cons, List.mem_cons] at hnot
    push_neg at hnot
    rw [show updateElemLoop key oldObj newObj ((n, f) :: rest) indices =
        updateElemLoop key oldObj newObj rest
          (indicesSet indices n (updateIndex key f oldObj newObj (indicesGet indices n)))
      from rfl]
    rw [ih _ name hnot.2]
    exact indicesGet_indicesSet_other _ _ _ _ hnot.1

theorem updateElemLoop_get (key : GoStr) (oldObj newObj : Option StoreElement) :
    ∀ (idxs : GoIndexers) (indices : Indices) (name : String) (f : IndexFunc),
      (idxs.map Prod.fst).Nodup → (name, f) ∈ idxs →
      indicesGet (updateElemLoop key oldObj newObj idxs indices) name =
        updateIndex key f oldObj newObj (indicesGet indices name) := by
  intro idxs
  induction idxs with
  | nil => intro indices name f _ hmem; cases hmem
  | cons en rest ih =>
    intro indices name f hnd hmem
    obtain ⟨n, g⟩ := en
    rw [show updateElemLoop key oldObj newObj ((n, g) :: rest) indices =
        updateElemLoop key oldObj newObj rest
          (indicesSet indices n (updateIndex key g oldObj newObj (indicesGet indices n)))
      from rfl]
    have hnd' : n ∉ rest.map Prod.fst ∧ (rest.map Prod.fst).Nodup :=
      List.nodup_cons.mp (by simpa using hnd)
    rcases List.mem_cons.mp hmem with hEq | hmem'
    · have hn : name = n := congrArg Prod.fst hEq
      have hf : f = g := congrArg Prod.snd hEq
      subst hn
      subst hf
      rw [updateElemLoop_get_notmem key oldObj newObj rest _ name hnd'.1]
      rw [indicesGet_indicesSet_same]
    · have hnn : n ≠ name := by
        intro hEq2
        exact hnd'.1 (hEq2 ▸ List.mem_map_of_mem Prod.fst hmem')
      rw [ih _ name f hnd'.2 hmem']
      rw [indicesGet_indicesSet_other _ _ _ _ (fun h => hnn h.symm)]

end WatchStore

namespace WatchStore

theorem mem_indexAdd (key : GoStr) (value : String) (obj : Option StoreElement)
    (index : Index) (en : String × GoStr × Option StoreElement) :
    en ∈ indexAdd key value obj index ↔
      en = (value, key, obj) ∨ (en ∈ index ∧ ¬(en.1 = value ∧ en.2.1 = key)) := by
  rw [indexAdd, List.mem_cons, List.mem_filter]
  simp only [Bool.not_eq_eq_eq_not, Bool.not_true, Bool.and_eq_false_imp,
    decide_eq_true_eq, decide_eq_false_iff_not]
  constructor
  · rintro (h | ⟨h1, h2⟩)
    · exact Or.inl h
    · refine Or.inr ⟨h1, ?_⟩
      rintro ⟨hv, hk⟩
      exact (h2 hv) hk
  · rintro (h | ⟨h1, h2⟩)
    · exact Or.inl h
    · refine Or.inr ⟨h1, ?_⟩
      intro hv hk
      exact h2 ⟨hv, hk⟩

theorem mem_indexDelete (key : GoStr) (value : String) (index : Index)
    (en : String × GoStr × Option StoreElement) :
    en ∈ indexDelete key value index ↔
      en ∈ index ∧ ¬(en.1 = value ∧ en.2.1 = key) := by
  rw [indexDelete, List.mem_filter]
  simp only [Bool.not_eq_eq_eq_not, Bool.not_true, Bool.and_eq_false_imp,
    decide_eq_true_eq, decide_eq_false_iff_not]
  constructor
  · rintro ⟨h1, h2⟩
    refine ⟨h1, ?_⟩
    rintro ⟨hv, hk⟩
    exact (h2 hv) hk
  · rintro ⟨h1, h2⟩
    refine ⟨h1, ?_⟩
    intro hv hk
    exact h2 ⟨hv, hk⟩

theorem mem_foldl_indexDelete (key : GoStr) :
    ∀ (vals : List String) (base : Index) (en : String × GoStr × Option StoreElement),
      en ∈ vals.foldl (fun ix w => indexDelete key w ix) base ↔
        en ∈ base ∧ ¬(en.1 ∈ vals ∧ en.2.1 = key) := by
  intro vals
  induction vals with
  | nil =>
    intro base en
    simp
  | cons v vs ih =>
    intro base en
    rw [List.foldl_cons, ih, mem_indexDelete]
    simp only [List.mem_cons]
    constructor
    · rintro ⟨⟨h1, h2⟩, h3⟩
      refine ⟨h1, ?_⟩
      rintro ⟨hv | hv, hk⟩
      · exact h2 ⟨hv, hk⟩
      · exact h3 ⟨hv, hk⟩
    · rintro ⟨h1, h2⟩
      refine ⟨⟨h1, ?_⟩, ?_⟩
      · rintro ⟨hv, hk⟩
        exact h2 ⟨Or.inl hv, hk⟩
      · rintro ⟨hv, hk⟩
        exact h2 ⟨Or.inr hv, hk⟩

theorem mem_foldl_indexAdd (key : GoStr) (obj : Option StoreElement) :
    ∀ (vals : List String) (base : Index) (en : String × GoStr × Option StoreElement),
      en ∈ vals.foldl (fun ix v => indexAdd key v obj ix) base ↔
        (∃ v ∈ vals, en = (v, key, obj)) ∨
        (en ∈ base ∧ ¬(en.1 ∈ vals ∧ en.2.1 = key)) := by
  intro vals
  induction vals with
  | nil =>
    intro base en
    simp
  | cons v vs ih =>
    intro base en
    rw [List.foldl_cons, ih, mem_indexAdd]
    simp only [List.mem_cons]
    constructor
    · rintro (⟨v', hv', hEq⟩ | ⟨(hEq | ⟨h1, h2⟩), h3⟩)
      · exact Or.inl ⟨v', Or.inr hv', hEq⟩
      · exact Or.inl ⟨v, Or.inl rfl, hEq⟩
      · refine Or.inr ⟨h1, ?_⟩
        rintro ⟨hv | hv, hk⟩
        · exact h2 ⟨hv, hk⟩
        · exact h3 ⟨hv, hk⟩
    · rintro (⟨v', hv' | hv', hEq⟩ | ⟨h1, h2⟩)
      · subst hv'
        by_cases hmem : en.1 ∈ vs ∧ en.2.1 = key
        · exact Or.inl ⟨en.1, hmem.1, by rw [hEq]⟩
        · refine Or.inr ⟨Or.inl hEq, ?_⟩
          intro hc
          rw [hEq] at hc
          simp at hc
          exact hmem (by rw [hEq]; exact ⟨hc, rfl⟩)
      · exact Or.inl ⟨v', hv', hEq⟩
      · refine Or.inr ⟨Or.inr ⟨h1, ?_⟩, ?_⟩
        · rintro ⟨hv, hk⟩
          exact h2 ⟨Or.inl hv, hk⟩
        · rintro ⟨hv, hk⟩
          exact h2 ⟨Or.inr hv, hk⟩

theorem mem_updateIndex (key : GoStr) (f : IndexFunc)
    (oldObj newObj : Option StoreElement) (index : Index)
    (en : String × GoStr × Option StoreElement) :
    en ∈ updateIndex key f oldObj newObj index ↔
      (∃ v ∈ extractVals f newObj, en = (v, key, newObj)) ∨
      (en ∈ index ∧ ¬(en.2.1 = key ∧
        (en.1 ∈ extractVals f oldObj ∨ en.1 ∈ extractVals f newObj))) := by
  rw [updateIndex]
  by_cases hfast : (extractVals f newObj).length = 1 ∧
      (extractVals f oldObj).length = 1 ∧
      (extractVals f newObj).headD "" = (extractVals f oldObj).headD ""
  case pos =>
    obtain ⟨v, hv⟩ := List.length_eq_one.mp hfast.1
    obtain ⟨w, hw⟩ := List.length_eq_one.mp hfast.2.1
    have hvw : v = w := by
      have := hfast.2.2
      rw [hv, hw] at this
      simpa using this
    subst hvw
    rw [if_pos hfast, mem_indexAdd]
    rw [hv, hw]
    simp only [List.mem_singleton, List.headD_cons] -- may need adjusting
    constructor
    · rintro (hEq | ⟨h1, h2⟩)
      · exact Or.inl ⟨v, rfl, hEq⟩
      · refine Or.inr ⟨h1, ?_⟩
        rintro ⟨hk, hv' | hv'⟩
        · exact h2 ⟨hv', hk⟩
        · exact h2 ⟨hv', hk⟩
    · rintro (⟨v', hv', hEq⟩ | ⟨h1, h2⟩)
      · subst hv'
        exact Or.inl hEq
      · refine Or.inr ⟨h1, ?_⟩
        rintro ⟨hvv, hk⟩
        exact h2 ⟨hk, Or.inr hvv⟩
  case neg =>
    rw [if_neg hfast, mem_foldl_indexAdd, mem_foldl_indexDelete]
    constructor
    · rintro (⟨v, hv, hEq⟩ | ⟨⟨h1, h2⟩, h3⟩)
      · exact Or.inl ⟨v, hv, hEq⟩
      · refine Or.inr ⟨h1, ?_⟩
        rintro ⟨hk, hv | hv⟩
        · exact h2 ⟨hv, hk⟩
        · exact h3 ⟨hv, hk⟩
    · rintro (⟨v, hv, hEq⟩ | ⟨h1, h2⟩)
      · exact Or.inl ⟨v, hv, hEq⟩
      · refine Or.inr ⟨⟨h1, ?_⟩, ?_⟩
        · rintro ⟨hv, hk⟩
          exact h2 ⟨hk, Or.inl hv⟩
        · rintro ⟨hv, hk⟩
          exact h2 ⟨hk, Or.inr hv⟩

end WatchStore

namespace WatchStore

/-- Old and new element for the fast-path scenario: same key, same index
value, different object. -/
def demoElemOld : StoreElement := ⟨[1], 0⟩

/-- The updated element stored under the same key. -/
def demoElemNew : StoreElement := ⟨[1], 1⟩

/-- An extraction function with a single constant value. -/
def demoConstFunc : IndexFunc := fun _ => ["a"]

/-- A concrete indexer state holding the old element. -/
def demoIndexer2 : Indexer :=
  ⟨[("i", [("a", [1], some demoElemOld)])], [("i", demoConstFunc)]⟩

/-- C7 counterexample: on the fast path (both extractions yield the same
single value) the index state is *not* left unchanged — `add` replaces
the stored element for `(value, key)` with the new object. -/
theorem indexer_fast_path_counterexample :
    demoConstFunc demoElemOld = ["a"] ∧ demoConstFunc demoElemNew = ["a"] ∧
    (demoIndexer2.updateElem [1] (some demoElemOld) (some demoElemNew)).indices ≠
      demoIndexer2.indices := by decide

/-- The specification bundle of the (amended) fast path: the index
becomes exactly `add(key, v, newObj)` — so the only change is that the
`(v, key)` slot now stores `newObj` — and the value→key-set structure is
unchanged whenever `key` was already present under `v`. -/
def FastPathSpec (i : Indexer) (name v : String) (key : GoStr)
    (oldObj newObj : StoreElement) : Prop :=
  indicesGet (i.updateElem key (some oldObj) (some newObj)).indices name =
    indexAdd key v (some newObj) (indicesGet i.indices name) ∧
  (∀ en : String × GoStr × Option StoreElement,
    en ∈ indicesGet (i.updateElem key (some oldObj) (some newObj)).indices name ↔
      en = (v, key, some newObj) ∨
      (en ∈ indicesGet i.indices name ∧ ¬(en.1 = v ∧ en.2.1 = key))) ∧
  ((∃ ob, (v, key, ob) ∈ indicesGet i.indices name) →
    ∀ (v' : String) (k' : GoStr),
      (∃ ob, (v', k', ob) ∈
          indicesGet (i.updateElem key (some oldObj) (some newObj)).indices name) ↔
      (∃ ob, (v', k', ob) ∈ indicesGet i.indices name))

/-- C7 (amended): when the extraction function of a registered index
yields the same single value `v` for the old and the new element,
`updateElem` rewrites that index to `add(key, v, newObj)`: no key is
added to or removed from any value's key set (provided `key` was already
under `v`, as index consistency guarantees); only the stored element for
`(v, key)` is refreshed to the new object. -/
theorem indexer_fast_path (i : Indexer) (name : String) (f : IndexFunc)
    (hN : (i.indexers.map Prod.fst).Nodup) (hmem : (name, f) ∈ i.indexers)
    (key : GoStr) (oldObj newObj : StoreElement) (v : String)
    (hold : f oldObj = [v]) (hnew : f newObj = [v]) :
    FastPathSpec i name v key oldObj newObj := by
  have hget : indicesGet (i.updateElem key (some oldObj) (some newObj)).indices name =
      updateIndex key f (some oldObj) (some newObj) (indicesGet i.indices name) :=
    updateElemLoop_get key (some oldObj) (some newObj) i.indexers i.indices name f
      hN hmem
  have hui : updateIndex key f (some oldObj) (some newObj)
      (indicesGet i.indices name) =
      indexAdd key v (some newObj) (indicesGet i.indices name) := by
    rw [updateIndex]
    have h1 : extractVals f (some oldObj) = [v] := hold
    have h2 : extractVals f (some newObj) = [v] := hnew
    rw [h1, h2]
    rw [if_pos (by simp)]
    simp
  have h1 : indicesGet (i.updateElem key (some oldObj) (some newObj)).indices name =
      indexAdd key v (some newObj) (indicesGet i.indices name) := by
    rw [hget, hui]
  refine ⟨h1, ?_, ?_⟩
  · intro en
    rw [h1, mem_indexAdd]
  · rintro ⟨ob0, hob0⟩ v' k'
    constructor
    · rintro ⟨ob, hob⟩
      rw [h1, mem_indexAdd] at hob
      rcases hob with hEq | ⟨hmem2, _⟩
      · have hv' : v' = v := congrArg Prod.fst hEq
        have hk' : k' = key := congrArg (fun en => en.2.1) hEq
        subst hv'
        subst hk'
        exact ⟨ob0, hob0⟩
      · exact ⟨ob, hmem2⟩
    · rintro ⟨ob, hob⟩
      by_cases hc : v' = v ∧ k' = key
      · refine ⟨some newObj, ?_⟩
        rw [h1, mem_indexAdd]
        exact Or.inl (by rw [hc.1, hc.2])
      · refine ⟨ob, ?_⟩
        rw [h1, mem_indexAdd]
        exact Or.inr ⟨hob, hc⟩

/-- Witness for the amended C7 at the concrete indexer state. -/
theorem indexer_fast_path_witness :
    (demoIndexer2.indexers.map Prod.fst).Nodup ∧
    ("i", demoConstFunc) ∈ demoIndexer2.indexers ∧
    demoConstFunc demoElemOld = ["a"] ∧ demoConstFunc demoElemNew = ["a"] ∧
    FastPathSpec demoIndexer2 "i" "a" [1] demoElemOld demoElemNew :=
  ⟨by decide, List.mem_singleton.mpr rfl, by decide, by decide,
    indexer_fast_path demoIndexer2 "i" demoConstFunc (by decide)
      (List.mem_singleton.mpr rfl) [1] demoElemOld demoElemNew "a"
      (by decide) (by decide)⟩

end WatchStore

namespace WatchStore

theorem keyLt_ne {a b : GoStr} (h : keyLt a b = true) : a ≠ b := by
  intro hEq
  subst hEq
  rw [keyLt_irrefl] at h
  cases h

theorem treeGet_eq_none {l : List StoreElement} {k : GoStr}
    (h : ∀ y ∈ l, y.Key ≠ k) : treeGet l k = none := by
  rw [treeGet, List.find?_eq_none]
  intro y hy
  simpa using h y hy

theorem treeGet_some {l : List StoreElement} {k : GoStr} {e : StoreElement}
    (h : treeGet l k = some e) : e ∈ l ∧ e.Key = k :=
  ⟨List.mem_of_find?_eq_some h, by simpa using List.find?_some h⟩

theorem treeGet_mem_sorted {l : List StoreElement} (hs : SortedTree l)
    {e : StoreElement} (he : e ∈ l) : treeGet l e.Key = some e := by
  induction l with
  | nil => cases he
  | cons x xs ih =>
    rcases List.pairwise_cons.mp hs with ⟨hx, hxs⟩
    rcases List.mem_cons.mp he with hEq | hmem
    · subst hEq
      rw [treeGet, List.find?_cons_of_pos _ (by simp)]
    · have hne : x.Key ≠ e.Key := keyLt_ne (hx e hmem)
      rw [treeGet, List.find?_cons_of_neg _ (by simpa using hne)]
      exact ih hxs hmem

theorem treeReplaceOrInsert_cons_lt (x : StoreElement) (xs : List StoreElement)
    (e : StoreElement) (h1 : keyLt e.Key x.Key = true) :
    treeReplaceOrInsert (x :: xs) e = (e :: x :: xs, none) := by
  simp only [treeReplaceOrInsert]
  rw [if_pos h1]

theorem treeReplaceOrInsert_cons_gt (x : StoreElement) (xs : List StoreElement)
    (e : StoreElement) (h1 : keyLt e.Key x.Key = false)
    (h2 : keyLt x.Key e.Key = true) :
    treeReplaceOrInsert (x :: xs) e =
      (x :: (treeReplaceOrInsert xs e).1, (treeReplaceOrInsert xs e).2) := by
  simp only [treeReplaceOrInsert]
  rw [if_neg (by simp [h1]), if_pos h2]

theorem treeReplaceOrInsert_cons_eq (x : StoreElement) (xs : List StoreElement)
    (e : StoreElement) (h1 : keyLt e.Key x.Key = false)
    (h2 : keyLt x.Key e.Key = false) :
    treeReplaceOrInsert (x :: xs) e = (e :: xs, some x) := by
  simp only [treeReplaceOrInsert]
  rw [if_neg (by simp [h1]), if_neg (by simp [h2])]

theorem mem_treeReplaceOrInsert (e : StoreElement) :
    ∀ (l : List StoreElement) (y : StoreElement),
      y ∈ (treeReplaceOrInsert l e).1 → y = e ∨ y ∈ l := by
  intro l
  induction l with
  | nil =>
    intro y hy
    rcases List.mem_cons.mp hy with h | h
    · exact Or.inl h
    · cases h
  | cons x xs ih =>
    intro y hy
    by_cases h1 : keyLt e.Key x.Key
    · rw [treeReplaceOrInsert_cons_lt x xs e h1] at hy
      rcases List.mem_cons.mp hy with h | h
      · exact Or.inl h
      · exact Or.inr h
    · by_cases h2 : keyLt x.Key e.Key
      · rw [treeReplaceOrInsert_cons_gt x xs e (by simpa using h1) h2] at hy
        rcases List.mem_cons.mp hy with h | h
        · exact Or.inr (h ▸ List.mem_cons_self x xs)
        · rcases ih y h with h3 | h3
          · exact Or.inl h3
          · exact Or.inr (List.mem_cons_of_mem _ h3)
      · rw [treeReplaceOrInsert_cons_eq x xs e (by simpa using h1)
          (by simpa using h2)] at hy
        rcases List.mem_cons.mp hy with h | h
        · exact Or.inl h
        · exact Or.inr (List.mem_cons_of_mem _ h)

theorem treeGet_cons (x : StoreElement) (xs : List StoreElement) (k : GoStr) :
    treeGet (x :: xs) k = if x.Key = k then some x else treeGet xs k := by
  by_cases h : x.Key = k
  · rw [if_pos h, treeGet, List.find?_cons_of_pos _ (by simpa using h)]
  · rw [if_neg h, treeGet, List.find?_cons_of_neg _ (by simpa using h)]
    rfl

theorem treeReplaceOrInsert_spec (e : StoreElement) :
    ∀ l : List StoreElement, SortedTree l →
      SortedTree (treeReplaceOrInsert l e).1 ∧
      (∀ k : GoStr, treeGet (treeReplaceOrInsert l e).1 k =
        if k = e.Key then some e else treeGet l k) ∧
      (treeReplaceOrInsert l e).2 = treeGet l e.Key := by
  intro l
  induction l with
  | nil =>
    intro _
    refine ⟨List.pairwise_singleton _ _, ?_, rfl⟩
    intro k
    rw [show (treeReplaceOrInsert [] e).1 = [e] from rfl, treeGet_cons]
    by_cases hk : k = e.Key
    · rw [if_pos hk, if_pos hk.symm]
    · rw [if_neg hk, if_neg (fun h => hk h.symm)]
  | cons x xs ih =>
    intro hs
    rcases List.pairwise_cons.mp hs with ⟨hx, hxs⟩
    by_cases h1 : keyLt e.Key x.Key
    · have hred := treeReplaceOrInsert_cons_lt x xs e h1
      have hnone : treeGet (x :: xs) e.Key = none := by
        refine treeGet_eq_none ?_
        intro y hy
        rcases List.mem_cons.mp hy with hEq | hmem
        · subst hEq
          exact fun h => keyLt_ne h1 h.symm
        · exact fun h => keyLt_ne (keyLt_trans h1 (hx y hmem)) h.symm
      refine ⟨?_, ?_, ?_⟩
      · rw [hred]
        refine List.pairwise_cons.mpr ⟨?_, hs⟩
        intro y hy
        rcases List.mem_cons.mp hy with hEq | hmem
        · subst hEq
          exact h1
        · exact keyLt_trans h1 (hx y hmem)
      · intro k
        rw [hred]
        rw [show ((e :: x :: xs, (none : Option StoreElement))).1 = e :: x :: xs
          from rfl, treeGet_cons]
        by_cases hk : k = e.Key
        · rw [if_pos hk, if_pos hk.symm]
        · rw [if_neg hk, if_neg (fun h => hk h.symm)]
      · rw [hred, hnone]
    · by_cases h2 : keyLt x.Key e.Key
      · have hred := treeReplaceOrInsert_cons_gt x xs e (by simpa using h1) h2
        obtain ⟨ihs, ihget, ihold⟩ := ih hxs
        have hxne : x.Key ≠ e.Key := keyLt_ne h2
        refine ⟨?_, ?_, ?_⟩
        · rw [hred]
          refine List.pairwise_cons.mpr ⟨?_, ihs⟩
          intro y hy
          rcases mem_treeReplaceOrInsert e xs y hy with hEq | hmem
          · subst hEq
            exact h2
          · exact hx y hmem
        · intro k
          rw [hred]
          rw [show ((x :: (treeReplaceOrInsert xs e).1,
            (treeReplaceOrInsert xs e).2)).1 = x :: (treeReplaceOrInsert xs e).1
            from rfl, treeGet_cons, treeGet_cons, ihget k]
          by_cases hxk : x.Key = k
          · have hk : ¬ k = e.Key := fun h => hxne (hxk.trans h)
            rw [if_pos hxk, if_neg hk, if_pos hxk]
          · rw [if_neg hxk, if_neg hxk]
        · rw [hred]
          rw [show ((x :: (treeReplaceOrInsert xs e).1,
            (treeReplaceOrInsert xs e).2)).2 = (treeReplaceOrInsert xs e).2
            from rfl, ihold, treeGet_cons, if_neg hxne]
      · have hred := treeReplaceOrInsert_cons_eq x xs e (by simpa using h1)
          (by simpa using h2)
        have hxe : x.Key = e.Key := keyLt_total _ _ (by simpa using h2)
          (by simpa using h1)
        refine ⟨?_, ?_, ?_⟩
        · rw [hred]
          refine List.pairwise_cons.mpr ⟨?_, hxs⟩
          intro y hy
          have := hx y hy
          rw [hxe] at this
          exact this
        · intro k
          rw [hred]
          rw [show ((e :: xs, some x)).1 = e :: xs from rfl, treeGet_cons,
            treeGet_cons]
          by_cases hk : k = e.Key
          · rw [if_pos hk, if_pos hk.symm]
          · rw [if_neg hk, if_neg (fun h => hk h.symm),
              if_neg (fun h => hk ((hxe.symm.trans h).symm ▸ rfl))]
        · rw [hred, treeGet_cons, if_pos hxe]

theorem treeDelete_cons_lt (x : StoreElement) (xs : List StoreElement)
    (e : StoreElement) (h1 : keyLt e.Key x.Key = true) :
    treeDelete (x :: xs) e = (x :: xs, none) := by
  simp only [treeDelete]
  rw [if_pos h1]

theorem treeDelete_cons_gt (x : StoreElement) (xs : List StoreElement)
    (e : StoreElement) (h1 : keyLt e.Key x.Key = false)
    (h2 : keyLt x.Key e.Key = true) :
    treeDelete (x :: xs) e = (x :: (treeDelete xs e).1, (treeDelete xs e).2) := by
  simp only [treeDelete]
  rw [if_neg (by simp [h1]), if_pos h2]

theorem treeDelete_cons_eq (x : StoreElement) (xs : List StoreElement)
    (e : StoreElement) (h1 : keyLt e.Key x.Key = false)
    (h2 : keyLt x.Key e.Key = false) :
    treeDelete (x :: xs) e = (xs, some x) := by
  simp only [treeDelete]
  rw [if_neg (by simp [h1]), if_neg (by simp [h2])]

theorem mem_treeDelete (e : StoreElement) :
    ∀ (l : List StoreElement) (y : StoreElement),
      y ∈ (treeDelete l e).1 → y ∈ l := by
  intro l
  induction l with
  | nil =>
    intro y hy
    cases hy
  | cons x xs ih =>
    intro y hy
    by_cases h1 : keyLt e.Key x.Key
    · rw [treeDelete_cons_lt x xs e h1] at hy
      exact hy
    · by_cases h2 : keyLt x.Key e.Key
      · rw [treeDelete_cons_gt x xs e (by simpa using h1) h2] at hy
        rcases List.mem_cons.mp hy with h | h
        · exact h ▸ List.mem_cons_self x xs
        · exact List.mem_cons_of_mem _ (ih y h)
      · rw [treeDelete_cons_eq x xs e (by simpa using h1) (by simpa using h2)] at hy
        exact List.mem_cons_of_mem _ hy

theorem treeDelete_spec (e : StoreElement) :
    ∀ l : List StoreElement, SortedTree l →
      SortedTree (treeDelete l e).1 ∧
      (∀ k : GoStr, treeGet (treeDelete l e).1 k =
        if k = e.Key then none else treeGet l k) ∧
      (treeDelete l e).2 = treeGet l e.Key := by
  intro l
  induction l with
  | nil =>
    intro _
    refine ⟨List.Pairwise.nil, ?_, rfl⟩
    intro k
    by_cases hk : k = e.Key
    · rw [if_pos hk]
      rfl
    · rw [if_neg hk]
      rfl
  | cons x xs ih =>
    intro hs
    rcases List.pairwise_cons.mp hs with ⟨hx, hxs⟩
    by_cases h1 : keyLt e.Key x.Key
    · have hred := treeDelete_cons_lt x xs e h1
      have hnone : treeGet (x :: xs) e.Key = none := by
        refine treeGet_eq_none ?_
        intro y hy
        rcases List.mem_cons.mp hy with hEq | hmem
        · subst hEq
          exact fun h => keyLt_ne h1 h.symm
        · exact fun h => keyLt_ne (keyLt_trans h1 (hx y hmem)) h.symm
      refine ⟨?_, ?_, ?_⟩
      · rw [hred]
        exact hs
      · intro k
        rw [hred]
        by_cases hk : k = e.Key
        · rw [if_pos hk]
          rw [show ((x :: xs, (none : Option StoreElement))).1 = x :: xs from rfl]
          rw [hk]
          exact hnone
        · rw [if_neg hk]
      · rw [hred, hnone]
    · by_cases h2 : keyLt x.Key e.Key
      · have hred := treeDelete_cons_gt x xs e (by simpa using h1) h2
        obtain ⟨ihs, ihget, ihold⟩ := ih hxs
        have hxne : x.Key ≠ e.Key := keyLt_ne h2
        refine ⟨?_, ?_, ?_⟩
        · rw [hred]
          refine List.pairwise_cons.mpr ⟨?_, ihs⟩
          intro y hy
          exact hx y (mem_treeDelete e xs y hy)
        · intro k
          rw [hred]
          rw [show ((x :: (treeDelete xs e).1, (treeDelete xs e).2)).1 =
            x :: (treeDelete xs e).1 from rfl, treeGet_cons, treeGet_cons,
            ihget k]
          by_cases hxk : x.Key = k
          · have hk : ¬ k = e.Key := fun h => hxne (hxk.trans h)
            rw [if_pos hxk, if_neg hk, if_pos hxk]
          · rw [if_neg hxk, if_neg hxk]
        · rw [hred]
          rw [show ((x :: (treeDelete xs e).1, (treeDelete xs e).2)).2 =
            (treeDelete xs e).2 from rfl, ihold, treeGet_cons, if_neg hxne]
      · have hred := treeDelete_cons_eq x xs e (by simpa using h1)
          (by simpa using h2)
        have hxe : x.Key = e.Key := keyLt_total _ _ (by simpa using h2)
          (by simpa using h1)
        refine ⟨?_, ?_, ?_⟩
        · rw [hred]
          exact hxs
        · intro k
          rw [hred]
          rw [show ((xs, some x)).1 = xs from rfl]
          by_cases hk : k = e.Key
          · rw [if_pos hk]
            refine treeGet_eq_none ?_
            intro y hy
            have := hx y hy
            rw [hxe] at this
            intro hc
            exact keyLt_ne this (by rw [hc, hk])
          · rw [if_neg hk, treeGet_cons,
              if_neg (fun h => hk ((hxe.symm.trans h).symm ▸ rfl))]
        · rw [hred, treeGet_cons, if_pos hxe]

end WatchStore

namespace WatchStore

theorem addOrUpdateElem_fst_tree (s : BtreeStore) (e : StoreElement) :
    ((s.addOrUpdateElem e).1).tree = (treeReplaceOrInsert s.tree e).1 := rfl

theorem addOrUpdateElem_snd (s : BtreeStore) (e : StoreElement) :
    (s.addOrUpdateElem e).2 = (treeReplaceOrInsert s.tree e).2 := rfl

theorem deleteElem_fst_tree (s : BtreeStore) (e : StoreElement) :
    ((s.deleteElem e).1).tree = (treeDelete s.tree e).1 := rfl

theorem deleteElem_snd (s : BtreeStore) (e : StoreElement) :
    (s.deleteElem e).2 = (treeDelete s.tree e).2 := rfl

theorem replaceLoop_elem :
    ∀ (es : List StoreElement) (acc : BtreeStore),
      replaceLoop acc (es.map GoObj.elem) =
        (es.foldl (fun s e => (s.addOrUpdateElem e).1) acc, none) := by
  intro es
  induction es with
  | nil => intro acc; rfl
  | cons e rest ih =>
    intro acc
    rw [List.map_cons, List.foldl_cons]
    exact ih _

theorem find?_key_eq_none {es : List StoreElement} {k : GoStr}
    (h : ∀ e ∈ es, e.Key ≠ k) :
    es.find? (fun e => decide (e.Key = k)) = none := by
  rw [List.find?_eq_none]
  intro e he
  simpa using h e he

theorem find?_key_of_mem {es : List StoreElement} (hnd : (es.map (·.Key)).Nodup)
    {e : StoreElement} (he : e ∈ es) :
    es.find? (fun x => decide (x.Key = e.Key)) = some e := by
  induction es with
  | nil => cases he
  | cons x rest ih =>
    have hnd' : x.Key ∉ rest.map (·.Key) ∧ (rest.map (·.Key)).Nodup :=
      List.nodup_cons.mp (by simpa using hnd)
    rcases List.mem_cons.mp he with hEq | hmem
    · subst hEq
      rw [List.find?_cons_of_pos _ (by simp)]
    · have hne : x.Key ≠ e.Key := by
        intro hc
        exact hnd'.1 (hc ▸ List.mem_map_of_mem (·.Key) hmem)
      rw [List.find?_cons_of_neg _ (by simpa using hne)]
      exact ih hnd'.2 hmem

theorem foldl_insert_spec :
    ∀ (es : List StoreElement) (acc : BtreeStore), SortedTree acc.tree →
      (es.map (·.Key)).Nodup →
      SortedTree ((es.foldl (fun s e => (s.addOrUpdateElem e).1) acc).tree) ∧
      (∀ k : GoStr,
        treeGet ((es.foldl (fun s e => (s.addOrUpdateElem e).1) acc).tree) k =
          match es.find? (fun e => decide (e.Key = k)) with
          | some e => some e
          | none => treeGet acc.tree k) := by
  intro es
  induction es with
  | nil =>
    intro acc hacc _
    exact ⟨hacc, fun k => rfl⟩
  | cons e rest ih =>
    intro acc hacc hnd
    have hnd' : e.Key ∉ rest.map (·.Key) ∧ (rest.map (·.Key)).Nodup :=
      List.nodup_cons.mp (by simpa using hnd)
    obtain ⟨hins_sorted, hins_get, _⟩ := treeReplaceOrInsert_spec e acc.tree hacc
    have hacc' : SortedTree ((acc.addOrUpdateElem e).1).tree := by
      rw [addOrUpdateElem_fst_tree]
      exact hins_sorted
    obtain ⟨ihs, ihget⟩ := ih ((acc.addOrUpdateElem e).1) hacc' hnd'.2
    rw [List.foldl_cons]
    refine ⟨ihs, ?_⟩
    intro k
    rw [ihget k]
    by_cases hk : e.Key = k
    · have hrest : rest.find? (fun x => decide (x.Key = k)) = none := by
        refine find?_key_eq_none ?_
        intro x hx hc
        apply hnd'.1
        rw [hk]
        exact hc ▸ List.mem_map_of_mem (·.Key) hx
      rw [List.find?_cons_of_pos _ (by simpa using hk), hrest]
      rw [addOrUpdateElem_fst_tree, hins_get k, if_pos hk.symm]
    · rw [List.find?_cons_of_neg _ (by simpa using hk)]
      cases hr : rest.find? (fun x => decide (x.Key = k)) with
      | some x => rfl
      | none =>
        rw [addOrUpdateElem_fst_tree, hins_get k,
          if_neg (fun h => hk h.symm)]

end WatchStore

namespace WatchStore

theorem replaceIdxLoop_elem :
    ∀ (es : List StoreElement) (ix : Indexer),
      replaceIdxLoop ix (es.map GoObj.elem) =
        (es.foldl (fun ix e => ix.updateElem e.Key none (some e)) ix, none) := by
  intro es
  induction es with
  | nil => intro ix; rfl
  | cons e rest ih =>
    intro ix
    rw [List.map_cons, List.foldl_cons]
    exact ih _

theorem updateElem_indexers (i : Indexer) (key : GoStr)
    (oldObj newObj : Option StoreElement) :
    (i.updateElem key oldObj newObj).indexers = i.indexers := rfl

theorem foldl_updateElem_indexers :
    ∀ (es : List StoreElement) (ix : Indexer),
      (es.foldl (fun ix e => ix.updateElem e.Key none (some e)) ix).indexers =
        ix.indexers := by
  intro es
  induction es with
  | nil => intro ix; rfl
  | cons e rest ih =>
    intro ix
    rw [List.foldl_cons, ih]
    rfl

theorem foldl_updateElem_mem (idxs : GoIndexers) (hN : (idxs.map Prod.fst).Nodup)
    (name : String) (f : IndexFunc) (hmem : (name, f) ∈ idxs) :
    ∀ (es : List StoreElement) (ix : Indexer), ix.indexers = idxs →
      (es.map (·.Key)).Nodup →
      (∀ e ∈ es, ∀ (v : String) (ob : Option StoreElement),
        (v, e.Key, ob) ∉ indicesGet ix.indices name) →
      ∀ (v : String) (k : GoStr) (ob : Option StoreElement),
        ((v, k, ob) ∈ indicesGet
            (es.foldl (fun ix e => ix.updateElem e.Key none (some e)) ix).indices
            name ↔
          ((∃ e ∈ es, ob = some e ∧ k = e.Key ∧ v ∈ f e) ∨
           (v, k, ob) ∈ indicesGet ix.indices name)) := by
  intro es
  induction es with
  | nil =>
    intro ix _ _ _ v k ob
    simp
  | cons e rest ih =>
    intro ix hidx hnd hdisj v k ob
    have hnd' : e.Key ∉ rest.map (·.Key) ∧ (rest.map (·.Key)).Nodup :=
      List.nodup_cons.mp (by simpa using hnd)
    have hget : indicesGet (ix.updateElem e.Key none (some e)).indices name =
        updateIndex e.Key f none (some e) (indicesGet ix.indices name) := by
      rw [Indexer.updateElem]
      exact updateElemLoop_get e.Key none (some e) ix.indexers ix.indices name f
        (by rw [hidx]; exact hN) (by rw [hidx]; exact hmem)
    have hgetmem : ∀ (v' : String) (k' : GoStr) (ob' : Option StoreElement),
        (v', k', ob') ∈ indicesGet (ix.updateElem e.Key none (some e)).indices name ↔
          ((∃ w ∈ f e, (v', k', ob') = (w, e.Key, some e)) ∨
           ((v', k', ob') ∈ indicesGet ix.indices name ∧
             ¬(k' = e.Key ∧ v' ∈ f e))) := by
      intro v' k' ob'
      rw [hget, mem_updateIndex]
      constructor
      · rintro (⟨w, hw, hEq⟩ | ⟨h1, h2⟩)
        · exact Or.inl ⟨w, hw, hEq⟩
        · refine Or.inr ⟨h1, ?_⟩
          rintro ⟨hk, hv⟩
          exact h2 ⟨hk, Or.inr hv⟩
      · rintro (⟨w, hw, hEq⟩ | ⟨h1, h2⟩)
        · exact Or.inl ⟨w, hw, hEq⟩
        · refine Or.inr ⟨h1, ?_⟩
          rintro ⟨hk, hv | hv⟩
          · cases hv
          · exact h2 ⟨hk, hv⟩
    have hdisj' : ∀ e' ∈ rest, ∀ (v' : String) (ob' : Option StoreElement),
        (v', e'.Key, ob') ∉
          indicesGet (ix.updateElem e.Key none (some e)).indices name := by
      intro e' he' v' ob' hc
      rcases (hgetmem v' e'.Key ob').mp hc with ⟨w, _, hEq⟩ | ⟨h1, _⟩
      · have : e'.Key = e.Key := congrArg (fun x => x.2.1) hEq
        exact hnd'.1 (this ▸ List.mem_map_of_mem (·.Key) he')
      · exact hdisj e' (List.mem_cons_of_mem _ he') v' ob' h1
    rw [List.foldl_cons]
    rw [ih (ix.updateElem e.Key none (some e))
      (by rw [updateElem_indexers, hidx]) hnd'.2 hdisj' v k ob]
    rw [hgetmem v k ob]
    constructor
    · rintro (⟨e', he', hob, hk, hv⟩ | (⟨w, hw, hEq⟩ | ⟨h1, h2⟩))
      · exact Or.inl ⟨e', List.mem_cons_of_mem _ he', hob, hk, hv⟩
      · have hob : ob = some e := congrArg (fun x => x.2.2) hEq
        have hk : k = e.Key := congrArg (fun x => x.2.1) hEq
        have hv : v = w := congrArg Prod.fst hEq
        exact Or.inl ⟨e, List.mem_cons_self _ _, hob, hk, hv ▸ hw⟩
      · exact Or.inr h1
    · rintro (⟨e', he', hob, hk, hv⟩ | h1)
      · rcases List.mem_cons.mp he' with hEq | hmem2
        · subst hEq
          exact Or.inr (Or.inl ⟨v, hv, by rw [hob, hk]⟩)
        · exact Or.inl ⟨e', hmem2, hob, hk, hv⟩
      · refine Or.inr (Or.inr ⟨h1, ?_⟩)
        rintro ⟨hk, _⟩
        exact hdisj e (List.mem_cons_self _ _) v ob (hk ▸ h1)

end WatchStore

namespace WatchStore

/-- A facade operation: the watch-event stream applied through
`threadedStoreIndexer` (`Replace` inputs are element lists, as the
watch-cache resync supplies them). -/
inductive FacadeOp where
  | add (obj : GoObj)
  | update (obj : GoObj)
  | delete (obj : GoObj)
  | replace (objs : List StoreElement)

/-- The state part of one facade operation. -/
def applyFacadeOp (si : ThreadedStoreIndexer) : FacadeOp → ThreadedStoreIndexer
  | .add o => (si.Add o).1
  | .update o => (si.Update o).1
  | .delete o => (si.Delete o).1
  | .replace es => (si.Replace (es.map GoObj.elem)).1

/-- Side condition of the amended C4: `Replace` inputs carry pairwise
distinct keys. -/
def replaceKeysNodup : FacadeOp → Prop
  | .replace es => (es.map (·.Key)).Nodup
  | _ => True

/-- The inductive state invariant: the tree is key-sorted, the indexer
keeps its registered extraction functions, and every index entry matches
the store exactly. -/
def StateWF (idxs : GoIndexers) (si : ThreadedStoreIndexer) : Prop :=
  SortedTree si.store.tree ∧ si.indexer.indexers = idxs ∧
  ∀ name f, (name, f) ∈ idxs →
    ∀ (v : String) (k : GoStr) (ob : Option StoreElement),
      (v, k, ob) ∈ indicesGet si.indexer.indices name ↔
        ∃ e, ob = some e ∧ treeGet si.store.tree k = some e ∧ v ∈ f e

theorem addOrUpdate_elem_eq (si : ThreadedStoreIndexer) (e : StoreElement) :
    si.addOrUpdate (GoObj.elem e) =
      (⟨(si.store.addOrUpdateElem e).1,
        si.indexer.updateElem e.Key (si.store.addOrUpdateElem e).2 (some e)⟩,
       none) := rfl

theorem stateWF_addOrUpdate (idxs : GoIndexers) (hN : (idxs.map Prod.fst).Nodup)
    (si : ThreadedStoreIndexer) (hwf : StateWF idxs si) (e : StoreElement) :
    StateWF idxs (si.addOrUpdate (GoObj.elem e)).1 := by
  obtain ⟨hsorted, hidx, hinv⟩ := hwf
  obtain ⟨hins_sorted, hins_get, hins_old⟩ :=
    treeReplaceOrInsert_spec e si.store.tree hsorted
  rw [addOrUpdate_elem_eq]
  have hold : (si.store.addOrUpdateElem e).2 = treeGet si.store.tree e.Key := by
    rw [addOrUpdateElem_snd]
    exact hins_old
  refine ⟨?_, hidx, ?_⟩
  · rw [addOrUpdateElem_fst_tree]
    exact hins_sorted
  · intro name f hm v k ob
    have hget : indicesGet (si.indexer.updateElem e.Key
        (si.store.addOrUpdateElem e).2 (some e)).indices name =
        updateIndex e.Key f (si.store.addOrUpdateElem e).2 (some e)
          (indicesGet si.indexer.indices name) := by
      rw [Indexer.updateElem]
      exact updateElemLoop_get _ _ _ si.indexer.indexers si.indexer.indices name f
        (by rw [hidx]; exact hN) (by rw [hidx]; exact hm)
    have hlook : ∀ k' : GoStr, treeGet ((si.store.addOrUpdateElem e).1).tree k' =
        if k' = e.Key then some e else treeGet si.store.tree k' := by
      intro k'
      rw [addOrUpdateElem_fst_tree]
      exact hins_get k'
    rw [hget, mem_updateIndex, hlook k]
    by_cases hk : k = e.Key
    · rw [if_pos hk]
      constructor
      · rintro (⟨w, hw, hEq⟩ | ⟨h1, h2⟩)
        · have hob : ob = some e := congrArg (fun x => x.2.2) hEq
          have hv : v = w := congrArg Prod.fst hEq
          exact ⟨e, hob, rfl, hv ▸ hw⟩
        · exfalso
          obtain ⟨e'', hob, htg, hv⟩ := (hinv name f hm v k ob).mp h1
          apply h2
          refine ⟨hk, Or.inl ?_⟩
          rw [hold, ← hk, htg]
          exact hv
      · rintro ⟨e', hob, hsome, hv⟩
        have he' : e' = e := by
          injection hsome with h
          exact h.symm
        subst he'
        exact Or.inl ⟨v, hv, by rw [hob, hk]⟩
    · rw [if_neg hk]
      constructor
      · rintro (⟨w, hw, hEq⟩ | ⟨h1, _⟩)
        · exact absurd (congrArg (fun x => x.2.1) hEq) hk
        · exact (hinv name f hm v k ob).mp h1
      · intro h
        refine Or.inr ⟨(hinv name f hm v k ob).mpr h, ?_⟩
        rintro ⟨hkk, _⟩
        exact hk hkk

theorem stateWF_delete (idxs : GoIndexers) (hN : (idxs.map Prod.fst).Nodup)
    (si : ThreadedStoreIndexer) (hwf : StateWF idxs si) (d : StoreElement) :
    StateWF idxs (si.Delete (GoObj.elem d)).1 := by
  obtain ⟨hsorted, hidx, hinv⟩ := hwf
  obtain ⟨hdel_sorted, hdel_get, hdel_old⟩ := treeDelete_spec d si.store.tree hsorted
  have hold : (si.store.deleteElem d).2 = treeGet si.store.tree d.Key := by
    rw [deleteElem_snd]
    exact hdel_old
  have hlook : ∀ k' : GoStr, treeGet ((si.store.deleteElem d).1).tree k' =
      if k' = d.Key then none else treeGet si.store.tree k' := by
    intro k'
    rw [deleteElem_fst_tree]
    exact hdel_get k'
  have hsorted' : SortedTree ((si.store.deleteElem d).1).tree := by
    rw [deleteElem_fst_tree]
    exact hdel_sorted
  cases ho : (si.store.deleteElem d).2 with
  | none =>
    have hst : (si.Delete (GoObj.elem d)).1 = ⟨(si.store.deleteElem d).1, si.indexer⟩ := by
      simp only [ThreadedStoreIndexer.Delete, ho]
    rw [hst]
    refine ⟨hsorted', hidx, ?_⟩
    intro name f hm v k ob
    rw [hinv name f hm v k ob]
    have hnone : treeGet si.store.tree d.Key = none := by
      rw [← hold, ho]
    by_cases hk : k = d.Key
    · rw [hlook k, if_pos hk]
      subst hk
      rw [hnone]
    · rw [hlook k, if_neg hk]
  | some o =>
    have hst : (si.Delete (GoObj.elem d)).1 =
        ⟨(si.store.deleteElem d).1,
          si.indexer.updateElem d.Key (some o) none⟩ := by
      simp only [ThreadedStoreIndexer.Delete, ho]
    rw [hst]
    have hsome : treeGet si.store.tree d.Key = some o := by
      rw [← hold, ho]
    refine ⟨hsorted', hidx, ?_⟩
    intro name f hm v k ob
    have hget : indicesGet (si.indexer.updateElem d.Key (some o) none).indices name =
        updateIndex d.Key f (some o) none (indicesGet si.indexer.indices name) := by
      rw [Indexer.updateElem]
      exact updateElemLoop_get _ _ _ si.indexer.indexers si.indexer.indices name f
        (by rw [hidx]; exact hN) (by rw [hidx]; exact hm)
    rw [hget, mem_updateIndex, hlook k]
    by_cases hk : k = d.Key
    · rw [if_pos hk]
      constructor
      · rintro (⟨w, hw, _⟩ | ⟨h1, h2⟩)
        · cases hw
        · exfalso
          obtain ⟨e'', hob, htg, hv⟩ := (hinv name f hm v k ob).mp h1
          rw [hk] at htg
          rw [htg] at hsome
          have heo : e'' = o := Option.some.inj hsome
          apply h2
          refine ⟨hk, Or.inl ?_⟩
          show v ∈ extractVals f (some o)
          exact heo ▸ hv
      · rintro ⟨e', _, h, _⟩
        cases h
    · rw [if_neg hk]
      constructor
      · rintro (⟨w, hw, _⟩ | ⟨h1, _⟩)
        · cases hw
        · exact (hinv name f hm v k ob).mp h1
      · intro h
        refine Or.inr ⟨(hinv name f hm v k ob).mpr h, ?_⟩
        rintro ⟨hkk, _⟩
        exact hk hkk

end WatchStore

namespace WatchStore

theorem stateWF_replace (idxs : GoIndexers) (hN : (idxs.map Prod.fst).Nodup)
    (si : ThreadedStoreIndexer) (hwf : StateWF idxs si) (es : List StoreElement)
    (hnd : (es.map (·.Key)).Nodup) :
    StateWF idxs (si.Replace (es.map GoObj.elem)).1 := by
  obtain ⟨_, hidx, _⟩ := hwf
  have h1 : si.store.Replace (es.map GoObj.elem) =
      (es.foldl (fun s e => (s.addOrUpdateElem e).1) ⟨[]⟩, none) := by
    rw [BtreeStore.Replace]
    exact replaceLoop_elem es ⟨[]⟩
  have h2 : si.indexer.Replace (es.map GoObj.elem) =
      (es.foldl (fun ix e => ix.updateElem e.Key none (some e))
        ⟨[], si.indexer.indexers⟩, none) := by
    rw [Indexer.Replace]
    exact replaceIdxLoop_elem es _
  have hst : (si.Replace (es.map GoObj.elem)).1 =
      ⟨es.foldl (fun s e => (s.addOrUpdateElem e).1) ⟨[]⟩,
        es.foldl (fun ix e => ix.updateElem e.Key none (some e))
          ⟨[], si.indexer.indexers⟩⟩ := by
    simp only [ThreadedStoreIndexer.Replace, h1, h2]
  rw [hst]
  obtain ⟨hsorted', hlookup⟩ :=
    foldl_insert_spec es ⟨[]⟩ List.Pairwise.nil hnd
  refine ⟨hsorted', ?_, ?_⟩
  · rw [foldl_updateElem_indexers]
    exact hidx
  · intro name f hm v k ob
    have hbase : ∀ e ∈ es, ∀ (v' : String) (ob' : Option StoreElement),
        (v', e.Key, ob') ∉
          indicesGet (⟨[], si.indexer.indexers⟩ : Indexer).indices name := by
      intro e _ v' ob' hc
      simp [indicesGet] at hc
    rw [foldl_updateElem_mem idxs hN name f hm es ⟨[], si.indexer.indexers⟩ hidx
      hnd hbase v k ob]
    constructor
    · rintro (⟨e, he, hob, hk, hv⟩ | hmem0)
      · refine ⟨e, hob, ?_, hv⟩
        rw [hlookup k, hk, find?_key_of_mem hnd he]
      · simp [indicesGet] at hmem0
    · rintro ⟨e, hob, htg, hv⟩
      rw [hlookup k] at htg
      cases hf : es.find? (fun x => decide (x.Key = k)) with
      | none =>
        rw [hf] at htg
        exact absurd (show (none : Option StoreElement) = some e from htg)
          (by simp)
      | some x =>
        rw [hf] at htg
        have hx : x = e := Option.some.inj htg
        subst hx
        have hxm : x ∈ es := List.mem_of_find?_eq_some hf
        have hxk : x.Key = k := by simpa using List.find?_some hf
        exact Or.inl ⟨x, hxm, hob, hxk.symm, hv⟩

theorem stateWF_init (idxs : GoIndexers) :
    StateWF idxs (newThreadedBtreeStoreIndexer idxs) := by
  refine ⟨List.Pairwise.nil, rfl, ?_⟩
  intro name f _ v k ob
  constructor
  · intro h
    have h2 : (v, k, ob) ∈ indicesGet ([] : Indices) name := h
    simp [indicesGet] at h2
  · rintro ⟨e, _, h, _⟩
    exact absurd (show (none : Option StoreElement) = some e from h) (by simp)

theorem stateWF_apply (idxs : GoIndexers) (hN : (idxs.map Prod.fst).Nodup)
    (si : ThreadedStoreIndexer) (hwf : StateWF idxs si) (op : FacadeOp)
    (hop : replaceKeysNodup op) : StateWF idxs (applyFacadeOp si op) := by
  cases op with
  | add o =>
    cases o with
    | elem e => exact stateWF_addOrUpdate idxs hN si hwf e
    | nil => exact hwf
    | other => exact hwf
  | update o =>
    cases o with
    | elem e => exact stateWF_addOrUpdate idxs hN si hwf e
    | nil => exact hwf
    | other => exact hwf
  | delete o =>
    cases o with
    | elem d => exact stateWF_delete idxs hN si hwf d
    | nil => exact hwf
    | other => exact hwf
  | replace es => exact stateWF_replace idxs hN si hwf es hop

theorem stateWF_foldl (idxs : GoIndexers) (hN : (idxs.map Prod.fst).Nodup) :
    ∀ (ops : List FacadeOp) (si : ThreadedStoreIndexer), StateWF idxs si →
      (∀ op ∈ ops, replaceKeysNodup op) →
      StateWF idxs (ops.foldl applyFacadeOp si) := by
  intro ops
  induction ops with
  | nil =>
    intro si hwf _
    exact hwf
  | cons op rest ih =>
    intro si hwf hops
    rw [List.foldl_cons]
    exact ih _ (stateWF_apply idxs hN si hwf op (hops op (List.mem_cons_self _ _)))
      (fun op' h => hops op' (List.mem_cons_of_mem _ h))

/-- The index-consistency property of C4: `ByIndex(name, v)` returns
exactly the stored elements whose extraction yields `v`, and the union
over all values of the key sets equals the stored keys with at least one
extracted value. -/
def ConsistencySpec (si : ThreadedStoreIndexer) : Prop :=
  ∀ name f, (name, f) ∈ si.indexer.indexers →
    (∀ v : String, ∃ l, si.ByIndex name v = Except.ok l ∧
      ∀ ob : Option StoreElement,
        ob ∈ l ↔ ∃ e, ob = some e ∧ e ∈ si.store.tree ∧ v ∈ f e) ∧
    (∀ k : GoStr, (∃ (v : String) (ob : Option StoreElement),
        (v, k, ob) ∈ indicesGet si.indexer.indices name) ↔
      ∃ e, treeGet si.store.tree k = some e ∧ f e ≠ [])

theorem consistencySpec_of_stateWF (idxs : GoIndexers) (si : ThreadedStoreIndexer)
    (hwf : StateWF idxs si) : ConsistencySpec si := by
  obtain ⟨hsorted, hidx, hinv⟩ := hwf
  intro name f hm
  have hm' : (name, f) ∈ idxs := hidx ▸ hm
  constructor
  · intro v
    have hfind : (si.indexer.indexers.find?
        (fun en => decide (en.1 = name))).isSome = true :=
      List.find?_isSome.mpr ⟨(name, f), hm, by simp⟩
    obtain ⟨en, hen⟩ := Option.isSome_iff_exists.mp hfind
    refine ⟨((indicesGet si.indexer.indices name).filter
      (fun en => decide (en.1 = v))).map (fun en => en.2.2), ?_, ?_⟩
    · rw [ThreadedStoreIndexer.ByIndex, Indexer.ByIndex, hen]
    · intro ob
      constructor
      · intro hob
        rw [List.mem_map] at hob
        obtain ⟨en2, hen2, hob2⟩ := hob
        rw [List.mem_filter] at hen2
        obtain ⟨hen2, hv⟩ := hen2
        have hv' : en2.1 = v := by simpa using hv
        have hmem2 : (v, en2.2.1, ob) ∈ indicesGet si.indexer.indices name := by
          rw [← hv', ← hob2]
          exact hen2
        obtain ⟨e, hob3, htg, hvf⟩ := (hinv name f hm' v en2.2.1 ob).mp hmem2
        exact ⟨e, hob3, (treeGet_some htg).1, hvf⟩
      · rintro ⟨e, hob, hetree, hvf⟩
        have htg : treeGet si.store.tree e.Key = some e :=
          treeGet_mem_sorted hsorted hetree
        have hmem2 : (v, e.Key, ob) ∈ indicesGet si.indexer.indices name :=
          (hinv name f hm' v e.Key ob).mpr ⟨e, hob, htg, hvf⟩
        rw [List.mem_map]
        refine ⟨(v, e.Key, ob), ?_, rfl⟩
        rw [List.mem_filter]
        exact ⟨hmem2, by simp⟩
  · intro k
    constructor
    · rintro ⟨v, ob, hmem2⟩
      obtain ⟨e, _, htg, hvf⟩ := (hinv name f hm' v k ob).mp hmem2
      exact ⟨e, htg, List.ne_nil_of_mem hvf⟩
    · rintro ⟨e, htg, hfne⟩
      obtain ⟨v, hv⟩ := List.exists_mem_of_ne_nil _ hfne
      exact ⟨v, some e, (hinv name f hm' v k (some e)).mpr ⟨e, rfl, htg, hv⟩⟩

/-- C4 (amended): for every sequence of facade operations whose `Replace`
inputs carry pairwise-distinct keys (and error-free extraction
functions), `ByIndex(name, v)` always returns exactly the stored
elements whose extraction for that index contains `v`, and the union
over all index values of their key sets equals the set of stored keys
with at least one extracted value. -/
theorem index_consistency (idxs : GoIndexers) (hN : (idxs.map Prod.fst).Nodup)
    (ops : List FacadeOp) (hops : ∀ op ∈ ops, replaceKeysNodup op) :
    ConsistencySpec (ops.foldl applyFacadeOp (newThreadedBtreeStoreIndexer idxs)) :=
  consistencySpec_of_stateWF idxs _
    (stateWF_foldl idxs hN ops _ (stateWF_init idxs) hops)

end WatchStore

namespace WatchStore

instance exceptDecEq {ε α : Type} [DecidableEq ε] [DecidableEq α] :
    DecidableEq (Except ε α) := fun a b =>
  match a, b with
  | Except.error x, Except.error y =>
    if h : x = y then isTrue (congrArg Except.error h)
    else isFalse fun hc => h (Except.error.inj hc)
  | Except.error _, Except.ok _ => isFalse fun hc => Except.noConfusion hc
  | Except.ok _, Except.error _ => isFalse fun hc => Except.noConfusion hc
  | Except.ok x, Except.ok y =>
    if h : x = y then isTrue (congrArg Except.ok h)
    else isFalse fun hc => h (Except.ok.inj hc)

instance replaceKeysNodupDec : ∀ op : FacadeOp, Decidable (replaceKeysNodup op)
  | FacadeOp.add _ => isTrue trivial
  | FacadeOp.update _ => isTrue trivial
  | FacadeOp.delete _ => isTrue trivial
  | FacadeOp.replace es =>
    show Decidable ((es.map (·.Key)).Nodup) from List.nodupDecidable _

/-- First element of the duplicate-key `Replace` scenario. -/
def dupE1 : StoreElement := ⟨[7], 1⟩

/-- Second element, same key as `dupE1`, different object. -/
def dupE2 : StoreElement := ⟨[7], 2⟩

/-- An extraction function distinguishing the two duplicates. -/
def dupIdxFunc : IndexFunc := fun e => [if e.Object = 1 then "a" else "b"]

/-- The facade after `Replace([dupE1, dupE2])` with both elements sharing
one key. -/
def dupFacade : ThreadedStoreIndexer :=
  applyFacadeOp (newThreadedBtreeStoreIndexer [("i", dupIdxFunc)])
    (FacadeOp.replace [dupE1, dupE2])

/-- C4 counterexample: a `Replace` whose objects carry the same key
breaks index consistency — the store keeps only the last element, but
the indexer replays `updateElem(key, nil, elem)` per object and never
removes the first element's entries, so `ByIndex("i", "a")` returns an
element that is no longer stored. -/
theorem index_consistency_counterexample :
    dupFacade.ByIndex "i" "a" = Except.ok [some dupE1] ∧
    dupE1 ∉ dupFacade.store.tree ∧ "a" ∈ dupIdxFunc dupE1 := by decide

/-- Witness for the amended C4 on a concrete operation sequence (an add,
an update changing the index value, a delete, and a distinct-key
replace). -/
theorem index_consistency_witness :
    (([("i", dupIdxFunc)] : GoIndexers).map Prod.fst).Nodup ∧
    (∀ op ∈ [FacadeOp.add (GoObj.elem dupE1), FacadeOp.update (GoObj.elem dupE2),
        FacadeOp.replace [dupE1, ⟨[9], 3⟩], FacadeOp.delete (GoObj.elem dupE1)],
      replaceKeysNodup op) ∧
    ConsistencySpec (List.foldl applyFacadeOp
      (newThreadedBtreeStoreIndexer [("i", dupIdxFunc)])
      [FacadeOp.add (GoObj.elem dupE1), FacadeOp.update (GoObj.elem dupE2),
        FacadeOp.replace [dupE1, ⟨[9], 3⟩], FacadeOp.delete (GoObj.elem dupE1)]) :=
  ⟨by decide, by decide,
    index_consistency [("i", dupIdxFunc)] (by decide)
      [FacadeOp.add (GoObj.elem dupE1), FacadeOp.update (GoObj.elem dupE2),
        FacadeOp.replace [dupE1, ⟨[9], 3⟩], FacadeOp.delete (GoObj.elem dupE1)]
      (by decide)⟩

end WatchStore
